import Mathlib

/-!
Verification of the incremental soft line-wrap layout engine
(src/zed/src/editor/display_map/wrap_map.rs).

The file is a shallow embedding of that source file.  The collaborators the
source imports (the tab-map input layer, the generic sum-tree cursor and the
editor Point type) are not part of the given source tree; they are modelled
from the specification, with their doc comments marking them as such.
Machine integers (u32, usize) are modelled as Nat: none of the verified
claims depends on wrap-around behaviour.  A Rust panic is modelled by
returning none from an Option-valued function.  Strings are modelled as
List Char; byte offsets use the UTF-8 size of each character.
-/

set_option autoImplicit false

namespace Zed

/-- Modelled from the spec: the editor Point type (row/column coordinate pair,
used by both the input and the output coordinate space).  The spec requires
points to be totally ordered and summaries over spans to be additive, which
forces the concatenation semantics of addition and subtraction below: adding
the extent of a second span either extends the column of the last row or
moves to a fresh row. -/
structure Point where
  row : Nat
  column : Nat
deriving DecidableEq, Repr

def Point.zero : Point := ⟨0, 0⟩

/-- Modelled from the spec: extent addition (concatenation of spans). -/
def Point.add (a b : Point) : Point :=
  if b.row = 0 then ⟨a.row, a.column + b.column⟩ else ⟨a.row + b.row, b.column⟩

/-- Modelled from the spec: extent subtraction, the partial inverse of add. -/
def Point.sub (a b : Point) : Point :=
  if a.row = b.row then ⟨0, a.column - b.column⟩ else ⟨a.row - b.row, a.column⟩

/-- Lexicographic order test (row first, then column). -/
def Point.ble (a b : Point) : Bool :=
  Nat.blt a.row b.row || (a.row == b.row && Nat.ble a.column b.column)

/-- Strict lexicographic order test. -/
def Point.blt (a b : Point) : Bool :=
  Nat.blt a.row b.row || (a.row == b.row && Nat.blt a.column b.column)

def Point.isZero (p : Point) : Bool := p.row == 0 && p.column == 0

instance : LE Point := ⟨fun a b => Point.ble a b = true⟩
instance : LT Point := ⟨fun a b => Point.blt a b = true⟩

instance (a b : Point) : Decidable (a ≤ b) :=
  inferInstanceAs (Decidable (Point.ble a b = true))

instance (a b : Point) : Decidable (a < b) :=
  inferInstanceAs (Decidable (Point.blt a b = true))

/-! Text primitives over List Char.  Byte positions use Char.utf8Size. -/

def utf8Len (s : List Char) : Nat := (s.map Char.utf8Size).sum

/-- The first n bytes of a string (stopping before a character that would
cross the byte budget, as a Rust byte slice at a char boundary does). -/
def byteTake : Nat → List Char → List Char
  | _, [] => []
  | n, c :: cs => if c.utf8Size ≤ n then c :: byteTake (n - c.utf8Size) cs else []

/-- The string with its first n bytes removed. -/
def byteDrop : Nat → List Char → List Char
  | _, [] => []
  | n, c :: cs => if c.utf8Size ≤ n then byteDrop (n - c.utf8Size) cs else c :: cs

/-- Split on line feeds, like str::split over a single-char pattern: the
result always has one more segment than the string has line feeds. -/
def splitNl : List Char → List (List Char)
  | [] => [[]]
  | c :: cs =>
      if c = '\n' then [] :: splitNl cs
      else
        match splitNl cs with
        | [] => [[c]]
        | s :: rest => (c :: s) :: rest

/-- The first line of a string, including its trailing line feed if any. -/
def lineTake : List Char → List Char
  | [] => []
  | c :: cs => if c = '\n' then [c] else c :: lineTake cs

/-- The string after its first line (after the first line feed). -/
def lineDrop : List Char → List Char
  | [] => []
  | c :: cs => if c = '\n' then cs else lineDrop cs

/-- The first n rows of a string (each with its line feed). -/
def takeRows : Nat → List Char → List Char
  | 0, _ => []
  | n + 1, s => lineTake s ++ takeRows n (lineDrop s)

/-- The string after its first n rows. -/
def dropRows : Nat → List Char → List Char
  | 0, s => s
  | n + 1, s => dropRows n (lineDrop s)

/-- The suffix of a string starting at a (row, column-in-bytes) position. -/
def dropPt (p : Point) (s : List Char) : List Char :=
  byteDrop p.column (dropRows p.row s)

/-- Advancing a position over one character: a line feed moves to column 0 of
the next row, any other character advances the column by its UTF-8 size.
This is the running-position update of the chunk iterator in the source. -/
def advanceChar (p : Point) (c : Char) : Point :=
  if c = '\n' then ⟨p.row + 1, 0⟩ else ⟨p.row, p.column + c.utf8Size⟩

def advanceStr (p : Point) (s : List Char) : Point := s.foldl advanceChar p

/-- The extent of a string as a Point. -/
def extentOf (s : List Char) : Point := advanceStr Point.zero s

/-- Modelled from the spec: aggregate statistics of a span of text (total
line/column extents, character counts of the first and last lines, and the
longest row).  This is the tab-map TextSummary consumed by the source. -/
structure TextSummary where
  lines : Point
  first_line_chars : Nat
  last_line_chars : Nat
  longest_row : Nat
  longest_row_chars : Nat
deriving DecidableEq, Repr

def TextSummary.empty : TextSummary := ⟨Point.zero, 0, 0, 0, 0⟩

/-- Row index and char count of the longest row in a list of lines, the
earliest maximal one winning. -/
def bestRow : List (List Char) → Nat → Nat × Nat → Nat × Nat
  | [], _, acc => acc
  | l :: ls, i, acc =>
      if l.length > acc.2 then bestRow ls (i + 1) (i, l.length)
      else bestRow ls (i + 1) acc

/-- Modelled from the spec: the summary of a concrete piece of text
(TextSummary::from in the input layer). -/
def TextSummary.ofText (s : List Char) : TextSummary :=
  let ls := splitNl s
  let b := bestRow ls 0 (0, 0)
  { lines := extentOf s
  , first_line_chars := (ls.headD []).length
  , last_line_chars := (ls.getLastD []).length
  , longest_row := b.1
  , longest_row_chars := b.2 }

/-- Modelled from the spec: summary addition (summaries are additive: the sum
of two adjacent spans' summaries is the summary of their concatenation).
The joined row at the seam competes with each side's longest row. -/
def TextSummary.add (a b : TextSummary) : TextSummary :=
  let joined := a.last_line_chars + b.first_line_chars
  let cur : Nat × Nat :=
    if joined > a.longest_row_chars then (a.lines.row, joined)
    else (a.longest_row, a.longest_row_chars)
  let best : Nat × Nat :=
    if b.longest_row_chars > cur.2 then (a.lines.row + b.longest_row, b.longest_row_chars)
    else cur
  { lines := a.lines.add b.lines
  , first_line_chars :=
      if a.lines.row = 0 then a.first_line_chars + b.first_line_chars
      else a.first_line_chars
  , last_line_chars :=
      if b.lines.row = 0 then a.last_line_chars + b.last_line_chars
      else b.last_line_chars
  , longest_row := best.1
  , longest_row_chars := best.2 }

/-! The transform data model, from the source. -/

structure TransformSummary where
  input : TextSummary
  output : TextSummary
deriving DecidableEq, Repr

structure Transform where
  summary : TransformSummary
  display_text : Option (List Char)
deriving DecidableEq, Repr

/-- Transform::isomorphic from the source.  The source panics when the
supplied summary spans an empty range; the panic is modelled as none. -/
def Transform.isomorphic (s : TextSummary) : Option Transform :=
  if s.lines.isZero then none
  else some { summary := { input := s, output := s }, display_text := none }

/-- Transform::newline from the source: zero input extent, one output line
feed. -/
def Transform.newline : Transform :=
  { summary :=
      { input := TextSummary.empty
      , output :=
          { lines := ⟨1, 0⟩
          , first_line_chars := 0
          , last_line_chars := 0
          , longest_row := 0
          , longest_row_chars := 0 } }
  , display_text := some ['\n'] }

def Transform.inputExtent (t : Transform) : Point := t.summary.input.lines

def Transform.outputExtent (t : Transform) : Point := t.summary.output.lines

/-- Sum of the input-side summaries of a transform sequence (the input
projection of the sum-tree's root summary). -/
def inputSummarySum (ts : List Transform) : TextSummary :=
  ts.foldl (fun a t => a.add t.summary.input) TextSummary.empty

/-- Sum of the output-side summaries of a transform sequence. -/
def outputSummarySum (ts : List Transform) : TextSummary :=
  ts.foldl (fun a t => a.add t.summary.output) TextSummary.empty

/-! The input layer, modelled from the spec. -/

/-- Modelled from the spec: the versioned input (tab-map) snapshot consumed by
the source, reduced to its text and version. -/
structure InputSnapshot where
  text : List Char
  version : Nat
deriving DecidableEq, Repr

def InputSnapshot.textSummary (s : InputSnapshot) : TextSummary :=
  TextSummary.ofText s.text

def InputSnapshot.maxPoint (s : InputSnapshot) : Point := extentOf s.text

/-- Modelled from the spec: the input layer's chunk iterator from a position.
The spec fixes only that the concatenation of the chunks is the text from the
position to the end; it is modelled as a single chunk holding that suffix. -/
def InputSnapshot.chunksAt (s : InputSnapshot) (p : Point) : List (List Char) :=
  [dropPt p s.text]

/-- Modelled from the spec: the input layer's O(1) summary query for a
half-open row range. -/
def InputSnapshot.textSummaryForRows (s : InputSnapshot) (a b : Nat) : TextSummary :=
  TextSummary.ofText (takeRows (b - a) (dropRows a s.text))

/-! Edits, from the source (tab_map::Edit) and the RowEdit struct in sync. -/

structure PointRange where
  start : Point
  stop : Point
deriving DecidableEq, Repr

structure RowRange where
  start : Nat
  stop : Nat
deriving DecidableEq, Repr

structure InputEdit where
  old_lines : PointRange
  new_lines : PointRange
deriving DecidableEq, Repr

structure RowEdit where
  old_rows : RowRange
  new_rows : RowRange
deriving DecidableEq, Repr

/-- The row-granular ranges sync derives from an edit:
start.row .. end.row + 1 on both sides. -/
def toRowEdit (e : InputEdit) : RowEdit :=
  { old_rows := ⟨e.old_lines.start.row, e.old_lines.stop.row + 1⟩
  , new_rows := ⟨e.new_lines.start.row, e.new_lines.stop.row + 1⟩ }

/-! The snapshot, from the source. -/

structure Snapshot where
  transforms : List Transform
  input : InputSnapshot
  version : Nat
deriving DecidableEq, Repr

/-- Snapshot::new from the source: a single transform whose input and output
summaries are both the whole input's summary (built directly, not through
Transform::isomorphic, so an empty input does not fault). -/
def Snapshot.new (input : InputSnapshot) : Snapshot :=
  { transforms :=
      [ { summary := { input := input.textSummary, output := input.textSummary }
        , display_text := none } ]
  , input := input
  , version := input.version }

/-! The sum-tree cursor over the input dimension, modelled from the spec:
the transform sequence is modelled as a list; a right-biased seek consumes
every transform whose accumulated input end is at or before the target, so a
position exactly at a boundary resolves to the transform that starts there. -/

structure TCursor where
  pos : Point
  rest : List Transform
deriving DecidableEq, Repr

/-- Modelled from the spec: Cursor::slice with Bias::Right in the input
dimension: consume (and return) transforms while their accumulated end stays
at or before the target. -/
def sliceRight (target : Point) : Point → List Transform → List Transform × TCursor
  | pos, [] => ([], ⟨pos, []⟩)
  | pos, t :: ts =>
      let e := pos.add t.inputExtent
      if e.ble target then
        let r := sliceRight target e ts
        (t :: r.1, r.2)
      else ([], ⟨pos, t :: ts⟩)

def TCursor.slice (c : TCursor) (target : Point) : List Transform × TCursor :=
  sliceRight target c.pos c.rest

/-- Modelled from the spec: Cursor::seek_forward (a slice whose consumed
prefix is discarded). -/
def TCursor.seekForward (c : TCursor) (target : Point) : TCursor :=
  (c.slice target).2

/-- Modelled from the spec: Cursor::end in the seek dimension: the end of the
current transform, or the accumulated position when the cursor is exhausted. -/
def TCursor.seekEnd (c : TCursor) : Point :=
  match c.rest with
  | [] => c.pos
  | t :: _ => c.pos.add t.inputExtent

/-- Modelled from the spec: Cursor::next advances past the current item. -/
def TCursor.next (c : TCursor) : TCursor :=
  match c.rest with
  | [] => c
  | t :: ts => ⟨c.pos.add t.inputExtent, ts⟩

/-- Modelled from the spec: Cursor::suffix — everything from the current
item to the end. -/
def TCursor.suffix (c : TCursor) : List Transform := c.rest

/-! The re-wrap step of BackgroundWrapper::sync, from the source. -/

/-- The inner boundary loop of sync for one completed line (which always
carries its trailing line feed): for each break offset push an isomorphic
transform for the slice since the previous offset followed by a wrap-point
transform, then one final isomorphic transform for the remainder, if any. -/
def wrapPieces (line : List Char) : Nat → List Nat → Option (List Transform)
  | prev, [] =>
      if prev < utf8Len line then
        (Transform.isomorphic (TextSummary.ofText (byteDrop prev line))).map
          (fun t => [t])
      else some []
  | prev, b :: bs => do
      let t ← Transform.isomorphic
        (TextSummary.ofText (byteTake (b - prev) (byteDrop prev line)))
      let rest ← wrapPieces line b bs
      pure (t :: Transform.newline :: rest)

/-- The line-splitting loop of sync: segments are the split of the input
chunk stream on line feeds; each segment after the first completes the
pending line, which is then wrapped; the loop stops once the edit's new row
range is exhausted.  A pending line left when the chunk stream ends is
discarded, exactly as in the source. -/
def rewrapLines (wrapLine : List Char → List Nat) (stopRow : Nat) :
    Nat → List Char → List (List Char) → Option (List Transform)
  | _, _, [] => some []
  | row, line, seg :: segs => do
      let full := line ++ ['\n']
      let ts ← wrapPieces full 0 (wrapLine full)
      if row + 1 = stopRow then pure ts
      else do
        let rest ← rewrapLines wrapLine stopRow (row + 1) seg segs
        pure (ts ++ rest)

/-- The per-edit loop of BackgroundWrapper::sync, from the source: gap-fill
from the new input up to the edit's new start row, re-wrap the edit's new
rows, advance the old cursor to the edit's old end row, re-emit from the old
input summary the rows of a transform straddling that end, then either splice
old transforms up to the next edit or append the old suffix. -/
def syncLoop (wrapLine : List Char → List Nat) (oldSnap : Snapshot)
    (newInput : InputSnapshot) :
    List RowEdit → TCursor → List Transform → Option (List Transform)
  | [], _, acc => some acc
  | edit :: rest, cursor, acc => do
      let acc ←
        if edit.new_rows.start > (inputSummarySum acc).lines.row then do
          let t ← Transform.isomorphic
            (newInput.textSummaryForRows (inputSummarySum acc).lines.row
              edit.new_rows.start)
          pure (acc ++ [t])
        else pure acc
      let chunk := (newInput.chunksAt ⟨edit.new_rows.start, 0⟩).flatten
      let ts ←
        match splitNl chunk with
        | [] => some []
        | s0 :: segs => rewrapLines wrapLine edit.new_rows.stop edit.new_rows.start s0 segs
      let acc := acc ++ ts
      let cursor := cursor.seekForward ⟨edit.old_rows.stop, 0⟩
      let acc ←
        if cursor.seekEnd.row > edit.old_rows.stop then do
          let t ← Transform.isomorphic
            (oldSnap.input.textSummaryForRows edit.old_rows.stop cursor.seekEnd.row)
          pure (acc ++ [t])
        else pure acc
      match rest with
      | next :: _ =>
          if next.old_rows.start > cursor.seekEnd.row then
            let s := (cursor.next).slice ⟨next.old_rows.start, 0⟩
            syncLoop wrapLine oldSnap newInput rest s.2 (acc ++ s.1)
          else
            syncLoop wrapLine oldSnap newInput rest cursor acc
      | [] => pure (acc ++ (cursor.next).suffix)

/-- BackgroundWrapper::sync from the source.  The font system's wrap_line is
the collaborator parameter wrapLine.  An empty edit list returns the snapshot
unchanged.  Otherwise the old tree is sliced up to the first edit, the edit
loop runs, and the snapshot's transforms and version are replaced (the source
leaves the snapshot's input reference untouched, and so does this model). -/
def BackgroundWrapper.sync (wrapLine : List Char → List Nat) (old : Snapshot)
    (newInput : InputSnapshot) (edits : List InputEdit) : Option Snapshot :=
  match edits with
  | [] => some old
  | e :: es =>
      let rowEdits := toRowEdit e :: es.map toRowEdit
      let c0 : TCursor := ⟨Point.zero, old.transforms⟩
      let s := c0.slice ⟨(toRowEdit e).old_rows.start, 0⟩
      (syncLoop wrapLine old newInput rowEdits s.2 s.1).map
        (fun ts => { old with transforms := ts, version := newInput.version })

/-- The whole-document edit BackgroundWrapper::run submits on startup. -/
def fullEdit (input : InputSnapshot) : InputEdit :=
  { old_lines := ⟨Point.zero, input.maxPoint⟩
  , new_lines := ⟨Point.zero, input.maxPoint⟩ }

/-- A from-scratch wrap of an input: sync of the initial snapshot with the
whole-document edit, exactly what BackgroundWrapper::run performs first. -/
def fromScratch (wrapLine : List Char → List Nat) (input : InputSnapshot) :
    Option Snapshot :=
  BackgroundWrapper.sync wrapLine (Snapshot.new input) input [fullEdit input]

/-! The chunk-production iterator, from the source. -/

def headInputExtent : List Transform → Point
  | [] => Point.zero
  | t :: _ => t.inputExtent

/-- The character scan of Chunks::next over one cached chunk: consume
characters, updating the running input position, until the position reaches
the current transform's end; report the consumed characters, the remainder,
the final position, and whether the end was reached. -/
structure ScanResult where
  taken : List Char
  rest : List Char
  pos : Point
  reached : Bool
deriving DecidableEq, Repr

def scanChunk (pos limit : Point) : List Char → ScanResult
  | [] => ⟨[], [], pos, false⟩
  | c :: cs =>
      let p := advanceChar pos c
      if limit.ble p then ⟨[c], cs, p, true⟩
      else
        let r := scanChunk p limit cs
        ⟨c :: r.taken, r.rest, r.pos, r.reached⟩

/-- The state of the Chunks iterator: the remaining transforms (current
first), the input end of the current transform (the cursor's sum_end), the
cached unconsumed chunk, the not-yet-pulled chunks of the input iterator, and
the running input position. -/
structure Chunks where
  transforms : List Transform
  curEnd : Point
  inputChunk : List Char
  source : List (List Char)
  inputPosition : Point
deriving DecidableEq, Repr

/-- Modelled from the spec: seeking the transform cursor by the output
dimension with Bias::Right, accumulating both dimensions. -/
def seekOutRight (target : Point) : Point → Point → List Transform →
    Point × Point × List Transform
  | accOut, accIn, [] => (accOut, accIn, [])
  | accOut, accIn, t :: ts =>
      let e := accOut.add t.outputExtent
      if e.ble target then seekOutRight target e (accIn.add t.inputExtent) ts
      else (accOut, accIn, t :: ts)

/-- Snapshot::chunks_at from the source: seek the cursor to the output
position right-biased, derive the corresponding input position from the
residual offset, and open the input chunk iterator there. -/
def Snapshot.chunksAt (s : Snapshot) (p : Point) : Chunks :=
  let r := seekOutRight p Point.zero Point.zero s.transforms
  let pos := r.2.1.add (p.sub r.1)
  { transforms := r.2.2
  , curEnd := r.2.1.add (headInputExtent r.2.2)
  , inputChunk := []
  , source := s.input.chunksAt pos
  , inputPosition := pos }

/-- The iterator state chunks_at builds from a completed seek (the same
fields Snapshot.chunksAt computes, parameterized by the seek result). -/
def seekState (text : List Char) (p : Point)
    (r : Point × Point × List Transform) : Chunks :=
  { transforms := r.2.2
  , curEnd := r.2.1.add (headInputExtent r.2.2)
  , inputChunk := []
  , source := [dropPt (r.2.1.add (p.sub r.1)) text]
  , inputPosition := r.2.1.add (p.sub r.1) }

/-- One step of the Chunks iterator.  done models the iterator returning
None; fault models the unwrap panic when the input iterator is exhausted
while a transform still needs text. -/
inductive ChunkStep where
  | done
  | fault
  | yield (piece : List Char) (c : Chunks)

/-- Chunks::next from the source: a wrap-point transform yields its display
text and advances; otherwise the cached chunk (refilled from the input
iterator when empty) is scanned up to the current transform's end, the scanned
characters are yielded and the remainder retained. -/
def Chunks.next (c : Chunks) : ChunkStep :=
  match c.transforms with
  | [] => .done
  | t :: rest =>
    match t.display_text with
    | some s =>
        .yield s { c with transforms := rest
                        , curEnd := c.curEnd.add (headInputExtent rest) }
    | none =>
        let pulled : Option (List Char × List (List Char)) :=
          if c.inputChunk.isEmpty then
            match c.source with
            | [] => none
            | x :: xs => some (x, xs)
          else some (c.inputChunk, c.source)
        match pulled with
        | none => .fault
        | some (chunk, src) =>
            let r := scanChunk c.inputPosition c.curEnd chunk
            if r.reached then
              .yield r.taken { transforms := rest
                             , curEnd := c.curEnd.add (headInputExtent rest)
                             , inputChunk := r.rest
                             , source := src
                             , inputPosition := r.pos }
            else
              .yield r.taken { transforms := t :: rest
                             , curEnd := c.curEnd
                             , inputChunk := r.rest
                             , source := src
                             , inputPosition := r.pos }

/-- Fuel-driven driver collecting every piece the iterator yields.  none
models a panic (or exhausted fuel, which the theorems rule out). -/
def runChunks : Nat → Chunks → Option (List (List Char))
  | 0, _ => none
  | fuel + 1, c =>
    match c.next with
    | .done => some []
    | .fault => none
    | .yield piece c2 => (runChunks fuel c2).map (fun l => piece :: l)

/-- The list of fragments chunks_at yields, with fuel that the iterator can
never exhaust (each step strictly shrinks transforms + cached text). -/
def Snapshot.chunksCollect (s : Snapshot) (p : Point) : Option (List (List Char)) :=
  runChunks (s.transforms.length + s.input.text.length + 2) (s.chunksAt p)

/-! The transform-by-transform reconstruction of the output text, and the
well-formedness of a snapshot (the datatype invariant of the spec: transforms
tile the input text, wrap points carry one synthetic line feed, isomorphic
transforms have equal input and output extents covering a non-empty span). -/

/-- The transform-by-transform reconstruction of the output text: a
wrap-point transform contributes its display text, an isomorphic transform
contributes the span of the input text between its cumulative input start and
end (extracted by the same position scan the iterator uses); the remaining
text is threaded through. -/
def renderFrom : Point → Point → List Char → List Transform → List (List Char)
  | _, _, _, [] => []
  | pos, curEnd, suffix, t :: ts =>
    match t.display_text with
    | some s => s :: renderFrom pos (curEnd.add (headInputExtent ts)) suffix ts
    | none =>
        let r := scanChunk pos curEnd suffix
        r.taken :: renderFrom r.pos (curEnd.add (headInputExtent ts)) r.rest ts

/-- The whole output text reconstructed from a transform sequence over an
input text. -/
def renderAll (text : List Char) (ts : List Transform) : List Char :=
  (renderFrom Point.zero (Point.zero.add (headInputExtent ts)) text ts).flatten

/-- Well-formedness of a transform sequence against the remaining input text,
from a given input position: a wrap point carries exactly one synthetic line
feed and no input extent; an isomorphic transform has equal input and output
extents, covers a non-empty span, and its end is reached exactly by scanning
the remaining text; the final transform ends exactly at the end of the text. -/
def wfT : Point → List Char → List Transform → Bool
  | _, suffix, [] => suffix.isEmpty
  | pos, suffix, t :: ts =>
    match t.display_text with
    | some s =>
        decide (s = ['\n']) && decide (t.summary.input.lines = Point.zero) &&
        decide (t.summary.output.lines = (⟨1, 0⟩ : Point)) &&
        wfT pos suffix ts
    | none =>
        decide (t.summary.output.lines = t.summary.input.lines) &&
        Point.blt pos (pos.add t.summary.input.lines) &&
        (let r := scanChunk pos (pos.add t.summary.input.lines) suffix
         r.reached && decide (r.pos = pos.add t.summary.input.lines) &&
         wfT (pos.add t.summary.input.lines) r.rest ts)

/-- Well-formedness of a snapshot: its transforms are well-formed against its
input text from the origin; or, degenerately, the input is empty and every
transform is a zero-extent isomorphic one (the shape Snapshot::new gives an
empty input), which the right-biased seek always consumes whole. -/
def wfSnapshot (s : Snapshot) : Bool :=
  wfT Point.zero s.input.text s.transforms ||
  (s.input.text.isEmpty &&
    s.transforms.all fun t =>
      t.display_text.isNone && t.inputExtent.isZero && t.outputExtent.isZero)

/-- The characters from one position up to a target position, if the target
is reachable by advancing through the text (none otherwise). -/
def charsTo (target : Point) : Point → List Char → Option (List Char)
  | cur, [] => if cur = target then some [] else none
  | cur, c :: cs =>
      if cur = target then some []
      else (charsTo target (advanceChar cur c) cs).map (fun l => c :: l)

/-- A position is valid for a text when it is reachable by advancing through
the text from the origin. -/
def validPos (s : List Char) (p : Point) : Bool :=
  (charsTo p Point.zero s).isSome

/-- The number of wrap-point transforms in a sequence. -/
def wrapCount (ts : List Transform) : Nat :=
  (ts.filter fun t => t.display_text.isSome).length

/-- The strictly decreasing measure of the chunk iterator. -/
def chunksMeasure (c : Chunks) : Nat :=
  c.transforms.length + c.inputChunk.length +
    (c.source.map List.length).sum + c.source.length

/-- The invariant of a running chunk iterator relative to the remaining text:
the current transform is a wrap point (one synthetic feed, no input extent)
or an isomorphic transform whose end curEnd lies strictly ahead and is
reached exactly by scanning the remaining text; the tail continues from
there. -/
inductive WfState : Point → Point → List Char → List Transform → Prop
  | done (pos curEnd : Point) (suffix : List Char) : WfState pos curEnd suffix []
  | wrap (pos : Point) (suffix : List Char) (t : Transform)
      (ts : List Transform) :
      t.display_text = some ['\n'] →
      t.inputExtent = Point.zero →
      WfState pos (pos.add (headInputExtent ts)) suffix ts →
      WfState pos pos suffix (t :: ts)
  | iso (pos curEnd : Point) (suffix : List Char) (t : Transform)
      (ts : List Transform) :
      t.display_text = none →
      pos < curEnd →
      (scanChunk pos curEnd suffix).reached = true →
      (scanChunk pos curEnd suffix).pos = curEnd →
      WfState curEnd (curEnd.add (headInputExtent ts))
        (scanChunk pos curEnd suffix).rest ts →
      WfState pos curEnd suffix (t :: ts)

/-! The orchestration layer, modelled from the spec. -/

/-- Modelled from the spec: the sequential view of the orchestration layer's
state — the cached snapshot and version marker behind the lock, and the
unbounded queue of submitted edit batches. -/
structure WrapMapState where
  snapshot : Snapshot
  interpolated_version : Nat
  queue : List (InputSnapshot × List InputEdit)
deriving DecidableEq, Repr

/-- WrapMap::sync from the source: forward the batch to the background queue
and return a clone of the cached snapshot; the cached state is not touched. -/
def WrapMapState.sync (st : WrapMapState) (input : InputSnapshot)
    (edits : List InputEdit) : Snapshot × WrapMapState :=
  (st.snapshot, { st with queue := st.queue ++ [(input, edits)] })

/-! Concrete data shared by the witnesses and counterexamples below. -/

/-- An isomorphic transform over the given literal text (what the re-wrap
step pushes for a line piece). -/
def isoT (s : String) : Transform :=
  { summary := { input := TextSummary.ofText s.toList
               , output := TextSummary.ofText s.toList }
  , display_text := none }

/-- A wrap function that never breaks a line. -/
def noWrap : List Char → List Nat := fun _ => []

/-- A wrap function breaking the line "ccc" (with its feed) after two bytes. -/
def exWC : List Char → List Nat := fun l =>
  if l = "ccc\n".toList then [2] else []

def exOldI : InputSnapshot := ⟨"ab\nccc\n".toList, 1⟩

def exNewI : InputSnapshot := ⟨"Xb\nccc\n".toList, 2⟩

/-- The edit replacing the two bytes of row 0 of exOldI to give exNewI. -/
def exEditC : InputEdit := ⟨⟨⟨0, 0⟩, ⟨0, 2⟩⟩, ⟨⟨0, 0⟩, ⟨0, 2⟩⟩⟩

def exInpA : InputSnapshot := ⟨['a'], 1⟩

def exOldA : Snapshot := Snapshot.new ⟨['a'], 0⟩

/-- The wrapped snapshot of the source's simple-wraps test: the document
"one two three four five six\n" wrapped to width 12. -/
def exSnap : Snapshot :=
  { transforms := [isoT "one two ", Transform.newline, isoT "three four ",
                   Transform.newline, isoT "five six\n"]
  , input := ⟨"one two three four five six\n".toList, 1⟩
  , version := 1 }

/-! Supporting lemmas about byte slicing. -/

theorem utf8Len_nil : utf8Len [] = 0 := rfl

theorem utf8Len_cons (c : Char) (cs : List Char) :
    utf8Len (c :: cs) = c.utf8Size + utf8Len cs := by
  simp [utf8Len]

theorem utf8Len_append (a b : List Char) :
    utf8Len (a ++ b) = utf8Len a + utf8Len b := by
  simp [utf8Len]

theorem byteTake_zero (s : List Char) : byteTake 0 s = [] := by
  cases s with
  | nil => rfl
  | cons c cs =>
      have := Char.utf8Size_pos c
      simp [byteTake]
      omega

theorem byteTake_append_drop (n : Nat) (s : List Char) :
    byteTake n s ++ byteDrop n s = s := by
  induction s generalizing n with
  | nil => rfl
  | cons c cs ih =>
      simp only [byteTake, byteDrop]
      by_cases h : c.utf8Size ≤ n
      · simp [h, ih]
      · simp [h]

/-- Taking exactly the byte length of a known front block returns it. -/
theorem byteTake_exact (q r : List Char) : byteTake (utf8Len q) (q ++ r) = q := by
  induction q with
  | nil => exact byteTake_zero r
  | cons c q ih =>
      simp only [List.cons_append, byteTake, utf8Len_cons]
      have h : c.utf8Size ≤ c.utf8Size + utf8Len q := Nat.le_add_right _ _
      simp only [h, if_true]
      have h2 : c.utf8Size + utf8Len q - c.utf8Size = utf8Len q := by omega
      rw [h2]
      show c :: byteTake (utf8Len q) (q ++ r) = c :: q
      rw [ih]

/-- Dropping exactly the byte length of a known front block removes it. -/
theorem byteDrop_exact (q r : List Char) : byteDrop (utf8Len q) (q ++ r) = r := by
  induction q with
  | nil =>
      cases r with
      | nil => rfl
      | cons c cs =>
          have := Char.utf8Size_pos c
          simp [byteDrop, utf8Len_nil]
          omega
  | cons c q ih =>
      simp only [List.cons_append, byteDrop, utf8Len_cons]
      have h : c.utf8Size ≤ c.utf8Size + utf8Len q := Nat.le_add_right _ _
      simp only [h, if_true]
      have h2 : c.utf8Size + utf8Len q - c.utf8Size = utf8Len q := by omega
      rw [h2]
      show byteDrop (utf8Len q) (q ++ r) = r
      rw [ih]

/-- Two decompositions of the same string, ordered by front byte length,
nest: the longer front extends the shorter one. -/
theorem front_nests (q r q' r' : List Char) (h : q ++ r = q' ++ r')
    (hle : utf8Len q ≤ utf8Len q') : ∃ q2, q' = q ++ q2 ∧ r = q2 ++ r' := by
  induction q generalizing q' with
  | nil => exact ⟨q', by simp, by simp at h; exact h⟩
  | cons c q ih =>
      cases q' with
      | nil =>
          have := Char.utf8Size_pos c
          rw [utf8Len_cons] at hle
          simp [utf8Len_nil] at hle
          omega
      | cons c' q'' =>
          simp only [List.cons_append, List.cons.injEq] at h
          obtain ⟨rfl, h2⟩ := h
          rw [utf8Len_cons, utf8Len_cons] at hle
          obtain ⟨q2, hq, hr⟩ := ih q'' h2 (by omega)
          exact ⟨q2, by simp [hq], hr⟩

/-! Supporting lemmas about the point order and arithmetic. -/

theorem Point.le_iff (a b : Point) :
    a ≤ b ↔ (a.row < b.row ∨ (a.row = b.row ∧ a.column ≤ b.column)) := by
  show Point.ble a b = true ↔ _
  simp [Point.ble, Nat.blt_eq]

theorem Point.lt_iff (a b : Point) :
    a < b ↔ (a.row < b.row ∨ (a.row = b.row ∧ a.column < b.column)) := by
  show Point.blt a b = true ↔ _
  simp [Point.blt, Nat.blt_eq]

theorem Point.le_refl (a : Point) : a ≤ a := by
  rw [Point.le_iff]; omega

theorem Point.le_trans {a b c : Point} (h1 : a ≤ b) (h2 : b ≤ c) : a ≤ c := by
  rw [Point.le_iff] at h1 h2 ⊢; omega

theorem Point.le_of_lt {a b : Point} (h : a < b) : a ≤ b := by
  rw [Point.lt_iff] at h; rw [Point.le_iff]; omega

theorem Point.lt_of_lt_of_le {a b c : Point} (h1 : a < b) (h2 : b ≤ c) : a < c := by
  rw [Point.lt_iff] at h1 ⊢; rw [Point.le_iff] at h2; omega

theorem Point.lt_of_le_of_lt {a b c : Point} (h1 : a ≤ b) (h2 : b < c) : a < c := by
  rw [Point.le_iff] at h1; rw [Point.lt_iff] at h2 ⊢; omega

theorem Point.not_le_iff_lt (a b : Point) : (¬ a ≤ b) ↔ b < a := by
  rw [Point.le_iff, Point.lt_iff]; omega

theorem Point.ble_false_iff (a b : Point) : Point.ble a b = false ↔ b < a := by
  have h1 : (¬ a ≤ b) ↔ b < a := Point.not_le_iff_lt a b
  constructor
  · intro h
    exact h1.mp (by show ¬ Point.ble a b = true; simp [h])
  · intro h
    have h2 := h1.mpr h
    cases hb : Point.ble a b with
    | false => rfl
    | true => exact absurd hb h2

theorem Point.zero_le (p : Point) : Point.zero ≤ p := by
  rw [Point.le_iff]; simp [Point.zero]; omega

theorem Point.add_zero (p : Point) : p.add Point.zero = p := by
  simp [Point.add, Point.zero]

theorem Point.zero_add (p : Point) : Point.zero.add p = p := by
  obtain ⟨r, c⟩ := p
  simp [Point.add, Point.zero]
  omega

theorem Point.add_assoc (a b c : Point) : (a.add b).add c = a.add (b.add c) := by
  obtain ⟨ar, ac⟩ := a; obtain ⟨br, bc⟩ := b; obtain ⟨cr, cc⟩ := c
  simp [Point.add]
  split_ifs <;> simp_all <;> omega

theorem Point.le_add_right (p e : Point) : p ≤ p.add e := by
  obtain ⟨pr, pc⟩ := p; obtain ⟨er, ec⟩ := e
  rw [Point.le_iff]
  simp [Point.add]
  split_ifs <;> simp_all <;> omega

theorem Point.lt_add_right (p : Point) {e : Point} (h : e ≠ Point.zero) :
    p < p.add e := by
  obtain ⟨pr, pc⟩ := p; obtain ⟨er, ec⟩ := e
  rw [Point.lt_iff]
  have h2 : ¬ (er = 0 ∧ ec = 0) := by
    intro hh; exact h (by simp [Point.zero, hh.1, hh.2])
  simp [Point.add]
  split_ifs <;> simp_all <;> omega

theorem Point.add_sub_cancel (p e : Point) : (p.add e).sub p = e := by
  obtain ⟨pr, pc⟩ := p; obtain ⟨er, ec⟩ := e
  simp [Point.add, Point.sub]
  split_ifs <;> simp_all <;> omega

theorem Point.sub_zero (p : Point) : p.sub Point.zero = p := by
  obtain ⟨pr, pc⟩ := p
  simp [Point.sub, Point.zero]
  omega

theorem Point.sub_self (p : Point) : p.sub p = Point.zero := by
  simp [Point.sub, Point.zero]

theorem Point.add_le_add_left_iff (p a b : Point) :
    p.add a ≤ p.add b ↔ a ≤ b := by
  obtain ⟨pr, pc⟩ := p; obtain ⟨ar, ac⟩ := a; obtain ⟨br, bc⟩ := b
  rw [Point.le_iff, Point.le_iff]
  simp [Point.add]
  split_ifs <;> simp_all <;> omega

theorem Point.add_lt_add_left_iff (p a b : Point) :
    p.add a < p.add b ↔ a < b := by
  obtain ⟨pr, pc⟩ := p; obtain ⟨ar, ac⟩ := a; obtain ⟨br, bc⟩ := b
  rw [Point.lt_iff, Point.lt_iff]
  simp [Point.add]
  split_ifs <;> simp_all <;> omega

theorem Point.le_sub_of_add_le {p e q : Point} (h : p.add e ≤ q) :
    e ≤ q.sub p := by
  obtain ⟨pr, pc⟩ := p; obtain ⟨er, ec⟩ := e; obtain ⟨qr, qc⟩ := q
  rw [Point.le_iff] at h ⊢
  simp [Point.add, Point.sub] at h ⊢
  split_ifs at h ⊢ <;> simp_all <;> omega

theorem Point.sub_sub {q a b : Point} (h : a.add b ≤ q) :
    (q.sub a).sub b = q.sub (a.add b) := by
  obtain ⟨ar, ac⟩ := a; obtain ⟨br, bc⟩ := b; obtain ⟨qr, qc⟩ := q
  rw [Point.le_iff] at h
  simp [Point.add, Point.sub] at h ⊢
  split_ifs at h ⊢ <;> simp_all <;> omega

theorem Point.eq_of_sub_eq_zero {p a : Point} (h1 : a ≤ p)
    (h2 : p.sub a = Point.zero) : p = a := by
  obtain ⟨ar, ac⟩ := a; obtain ⟨pr, pc⟩ := p
  rw [Point.le_iff] at h1
  simp [Point.sub, Point.zero] at h1 h2 ⊢
  split_ifs at h2 <;> simp_all <;> omega

theorem Point.sub_lt_of_lt_add {p a e : Point} (h1 : a ≤ p) (h2 : p < a.add e) :
    p.sub a < e := by
  obtain ⟨ar, ac⟩ := a; obtain ⟨pr, pc⟩ := p; obtain ⟨er, ec⟩ := e
  rw [Point.le_iff] at h1
  rw [Point.lt_iff] at h2 ⊢
  simp [Point.add, Point.sub] at h2 ⊢
  split_ifs at h2 ⊢ <;> simp_all <;> omega

theorem Point.add_sub_of_le {a p : Point} (h : a ≤ p) :
    a.add (p.sub a) = p := by
  obtain ⟨ar, ac⟩ := a; obtain ⟨pr, pc⟩ := p
  rw [Point.le_iff] at h
  simp [Point.add, Point.sub]
  split_ifs <;> simp_all <;> omega

/-! Supporting lemmas about advancing positions. -/

theorem advanceStr_cons (p : Point) (c : Char) (cs : List Char) :
    advanceStr p (c :: cs) = advanceStr (advanceChar p c) cs := rfl

/-- The extent row never decreases while advancing over text. -/
theorem advanceStr_row_le (p : Point) (s : List Char) :
    p.row ≤ (advanceStr p s).row := by
  induction s generalizing p with
  | nil => exact Nat.le_refl _
  | cons c cs ih =>
      rw [advanceStr_cons]
      have h := ih (advanceChar p c)
      have h2 : p.row ≤ (advanceChar p c).row := by
        simp only [advanceChar]
        by_cases hc : c = '\n' <;> simp [hc]
      omega

/-- If the row does not grow while advancing, the column does not shrink. -/
theorem advanceStr_column_le (p : Point) (s : List Char)
    (h : (advanceStr p s).row = p.row) : p.column ≤ (advanceStr p s).column := by
  induction s generalizing p with
  | nil => exact Nat.le_refl _
  | cons c cs ih =>
      rw [advanceStr_cons] at h ⊢
      by_cases hc : c = '\n'
      · exfalso
        have h1 : advanceChar p c = ⟨p.row + 1, 0⟩ := by simp [advanceChar, hc]
        rw [h1] at h
        have h2 : p.row + 1 ≤ (advanceStr ⟨p.row + 1, 0⟩ cs).row :=
          advanceStr_row_le ⟨p.row + 1, 0⟩ cs
        omega
      · have h1 : advanceChar p c = ⟨p.row, p.column + c.utf8Size⟩ := by
          simp [advanceChar, hc]
        rw [h1] at h ⊢
        have h3 : p.column + c.utf8Size ≤
            (advanceStr ⟨p.row, p.column + c.utf8Size⟩ cs).column := ih _ h
        omega

theorem advanceChar_add (p e : Point) (c : Char) :
    advanceChar (p.add e) c = p.add (advanceChar e c) := by
  obtain ⟨pr, pc⟩ := p; obtain ⟨er, ec⟩ := e
  by_cases hc : c = '\n' <;>
    simp [advanceChar, hc, Point.add] <;> split_ifs <;> simp_all <;> omega

theorem advanceStr_add (p e : Point) (s : List Char) :
    advanceStr (p.add e) s = p.add (advanceStr e s) := by
  induction s generalizing e with
  | nil => rfl
  | cons c cs ih => rw [advanceStr_cons, advanceStr_cons, advanceChar_add, ih]

theorem advanceStr_eq_add_extent (p : Point) (s : List Char) :
    advanceStr p s = p.add (extentOf s) := by
  have h := advanceStr_add p Point.zero s
  rw [Point.add_zero] at h
  exact h

theorem advanceStr_append (p : Point) (a b : List Char) :
    advanceStr p (a ++ b) = advanceStr (advanceStr p a) b := by
  simp [advanceStr, List.foldl_append]

theorem extentOf_append (a b : List Char) :
    extentOf (a ++ b) = (extentOf a).add (extentOf b) := by
  rw [extentOf, advanceStr_append, advanceStr_eq_add_extent]
  rfl

theorem advanceChar_lt (p : Point) (c : Char) : p < advanceChar p c := by
  obtain ⟨pr, pc⟩ := p
  have := Char.utf8Size_pos c
  by_cases hc : c = '\n' <;> simp [advanceChar, hc, Point.lt_iff] <;> omega

theorem advanceStr_le (p : Point) (s : List Char) : p ≤ advanceStr p s := by
  induction s generalizing p with
  | nil => exact Point.le_refl p
  | cons c cs ih =>
      rw [advanceStr_cons]
      exact Point.le_trans (Point.le_of_lt (advanceChar_lt p c)) (ih _)

theorem advanceStr_lt (p : Point) (s : List Char) (h : s ≠ []) :
    p < advanceStr p s := by
  cases s with
  | nil => exact absurd rfl h
  | cons c cs =>
      rw [advanceStr_cons]
      exact Point.lt_of_lt_of_le (advanceChar_lt p c) (advanceStr_le _ cs)

/-- A non-empty string has a non-zero extent. -/
theorem extentOf_ne_zero (s : List Char) (h : s ≠ []) :
    (extentOf s).isZero = false := by
  cases s with
  | nil => exact absurd rfl h
  | cons c cs =>
      rw [extentOf, advanceStr_cons, Point.isZero]
      by_cases hc : c = '\n'
      · have h1 : advanceChar Point.zero c = ⟨1, 0⟩ := by
          simp [advanceChar, hc, Point.zero]
        rw [h1]
        have h2 : (1 : Nat) ≤ (advanceStr ⟨1, 0⟩ cs).row := advanceStr_row_le ⟨1, 0⟩ cs
        have h3 : (advanceStr ⟨1, 0⟩ cs).row ≠ 0 := by omega
        simp [h3]
      · have h1 : advanceChar Point.zero c = ⟨0, c.utf8Size⟩ := by
          simp [advanceChar, hc, Point.zero]
        rw [h1]
        have hcs := Char.utf8Size_pos c
        by_cases hr : (advanceStr ⟨0, c.utf8Size⟩ cs).row = 0
        · have h2 : c.utf8Size ≤ (advanceStr ⟨0, c.utf8Size⟩ cs).column :=
            advanceStr_column_le ⟨0, c.utf8Size⟩ cs hr
          have h3 : (advanceStr ⟨0, c.utf8Size⟩ cs).column ≠ 0 := by omega
          simp [h3]
        · simp [hr]

/-- A non-empty piece of text yields a successful isomorphic transform. -/
theorem isomorphic_ofText_isSome (s : List Char) (h : s ≠ []) :
    (Transform.isomorphic (TextSummary.ofText s)).isSome = true := by
  have h1 : (TextSummary.ofText s).lines = extentOf s := rfl
  have h2 : (extentOf s).isZero = false := extentOf_ne_zero s h
  simp [Transform.isomorphic, h1, h2]

/-! Supporting lemmas about the character scan of the chunk iterator. -/

theorem scanChunk_append_rest (pos limit : Point) (s : List Char) :
    (scanChunk pos limit s).taken ++ (scanChunk pos limit s).rest = s := by
  induction s generalizing pos with
  | nil => rfl
  | cons c cs ih =>
      simp only [scanChunk]
      split_ifs with h
      · rfl
      · simp only [List.cons_append]
        rw [ih]

theorem scanChunk_pos_eq (pos limit : Point) (s : List Char) :
    (scanChunk pos limit s).pos = advanceStr pos (scanChunk pos limit s).taken := by
  induction s generalizing pos with
  | nil => rfl
  | cons c cs ih =>
      simp only [scanChunk]
      split_ifs with h
      · rfl
      · rw [advanceStr_cons]
        exact ih (advanceChar pos c)

theorem scanChunk_not_reached (pos limit : Point) (s : List Char)
    (h : (scanChunk pos limit s).reached = false) :
    (scanChunk pos limit s).taken = s ∧ (scanChunk pos limit s).rest = [] := by
  induction s generalizing pos with
  | nil => exact ⟨rfl, rfl⟩
  | cons c cs ih =>
      by_cases hb : limit.ble (advanceChar pos c) = true
      · exfalso
        simp [scanChunk, hb] at h
      · have h2 : (scanChunk (advanceChar pos c) limit cs).reached = false := by
          simp only [scanChunk, hb, Bool.false_eq_true, if_false] at h
          exact h
        obtain ⟨h3, h4⟩ := ih (advanceChar pos c) h2
        simp [scanChunk, hb, h3, h4]

theorem scanChunk_not_reached_pos (pos limit : Point) (s : List Char)
    (hp : pos < limit) (h : (scanChunk pos limit s).reached = false) :
    (scanChunk pos limit s).pos < limit := by
  induction s generalizing pos with
  | nil => exact hp
  | cons c cs ih =>
      by_cases hb : limit.ble (advanceChar pos c) = true
      · exfalso
        simp [scanChunk, hb] at h
      · have h2 : (scanChunk (advanceChar pos c) limit cs).reached = false := by
          simp only [scanChunk, hb, Bool.false_eq_true, if_false] at h
          exact h
        have h3 := ih (advanceChar pos c) ((Point.not_le_iff_lt limit _).mp hb) h2
        simp [scanChunk, hb, h3]

theorem scanChunk_nil_reached (pos limit : Point) :
    (scanChunk pos limit []).reached = false := rfl

theorem scanChunk_append (pos limit : Point) (a b : List Char) :
    scanChunk pos limit (a ++ b) =
      if (scanChunk pos limit a).reached then
        ⟨(scanChunk pos limit a).taken, (scanChunk pos limit a).rest ++ b,
         (scanChunk pos limit a).pos, true⟩
      else
        ⟨a ++ (scanChunk (scanChunk pos limit a).pos limit b).taken,
         (scanChunk (scanChunk pos limit a).pos limit b).rest,
         (scanChunk (scanChunk pos limit a).pos limit b).pos,
         (scanChunk (scanChunk pos limit a).pos limit b).reached⟩ := by
  induction a generalizing pos with
  | nil => simp [scanChunk]
  | cons c cs ih =>
      by_cases hb : limit.ble (advanceChar pos c) = true
      · simp [scanChunk, hb]
      · have h1 := ih (advanceChar pos c)
        by_cases h2 : (scanChunk (advanceChar pos c) limit cs).reached = true
        · simp [scanChunk, hb, h2, h1]
        · simp [scanChunk, hb, h2, h1]

theorem scanChunk_cons (pos limit : Point) (c : Char) (cs : List Char) :
    scanChunk pos limit (c :: cs) =
      if limit.ble (advanceChar pos c) = true then
        ⟨[c], cs, advanceChar pos c, true⟩
      else
        ⟨c :: (scanChunk (advanceChar pos c) limit cs).taken,
         (scanChunk (advanceChar pos c) limit cs).rest,
         (scanChunk (advanceChar pos c) limit cs).pos,
         (scanChunk (advanceChar pos c) limit cs).reached⟩ := rfl

/-- Scanning a block that ends exactly at the limit consumes exactly that
block: positions strictly increase, so no earlier character reaches the
limit. -/
theorem scanChunk_exact (pos limit : Point) (q r : List Char) (hq : q ≠ [])
    (hend : advanceStr pos q = limit) :
    scanChunk pos limit (q ++ r) = ⟨q, r, limit, true⟩ := by
  induction q generalizing pos with
  | nil => exact absurd rfl hq
  | cons c q' ih =>
      cases q' with
      | nil =>
          have h1 : advanceChar pos c = limit := hend
          have h2 : limit.ble limit = true := Point.le_refl limit
          rw [List.cons_append, List.nil_append, scanChunk_cons, h1, h2]
          simp
      | cons d q'' =>
          have hlt : advanceChar pos c < limit := by
            rw [← hend, advanceStr_cons]
            exact advanceStr_lt _ _ (by simp)
          have hble : limit.ble (advanceChar pos c) = false :=
            (Point.ble_false_iff _ _).mpr hlt
          have hrec := ih (advanceChar pos c) (by simp)
            (by rw [← advanceStr_cons]; exact hend)
          rw [List.cons_append, scanChunk_cons, hble]
          simp only [Bool.false_eq_true, if_false]
          rw [hrec]

/-! Supporting lemmas about reachable positions. -/

theorem charsTo_sound (target : Point) (s : List Char) :
    ∀ (cur : Point) (q : List Char), charsTo target cur s = some q →
      ∃ r, s = q ++ r ∧ advanceStr cur q = target := by
  induction s with
  | nil =>
      intro cur q h
      simp only [charsTo] at h
      split_ifs at h with hc
      cases h
      exact ⟨[], rfl, hc⟩
  | cons c cs ih =>
      intro cur q h
      simp only [charsTo] at h
      split_ifs at h with hc
      · cases h
        exact ⟨c :: cs, rfl, hc⟩
      · rw [Option.map_eq_some'] at h
        obtain ⟨q2, hq2, rfl⟩ := h
        obtain ⟨r, hr, hend⟩ := ih (advanceChar cur c) q2 hq2
        exact ⟨r, by simp [hr], by rw [advanceStr_cons]; exact hend⟩

theorem charsTo_complete (target : Point) (q : List Char) :
    ∀ (cur : Point) (r : List Char), advanceStr cur q = target →
      (charsTo target cur (q ++ r)).isSome = true := by
  induction q with
  | nil =>
      intro cur r hend
      have hc : cur = target := hend
      cases r <;> simp [charsTo, hc]
  | cons c q' ih =>
      intro cur r hend
      simp only [List.cons_append, charsTo]
      split_ifs with h
      · simp
      · have h2 := ih (advanceChar cur c) r (by rw [← hend, advanceStr_cons])
        cases hx : charsTo target (advanceChar cur c) (q' ++ r) with
        | none => rw [hx] at h2; simp at h2
        | some l => simp [hx]

/-! Supporting lemmas about dropping a position-aligned front of a text. -/

theorem byteDrop_zero (s : List Char) : byteDrop 0 s = s := by
  cases s with
  | nil => rfl
  | cons c cs =>
      have := Char.utf8Size_pos c
      simp [byteDrop]
      omega

theorem dropPt_zero (s : List Char) : dropPt Point.zero s = s := by
  simp [dropPt, Point.zero, dropRows, byteDrop_zero]

theorem lineDrop_cons_nl (s : List Char) : lineDrop ('\n' :: s) = s := by
  simp [lineDrop]

theorem lineDrop_cons (c : Char) (s : List Char) (h : ¬ c = '\n') :
    lineDrop (c :: s) = lineDrop s := by
  simp [lineDrop, h]

/-- Dropping one leading character moves the drop position back by that
character's extent. -/
theorem dropPt_cons (p : Point) (c : Char) (s : List Char)
    (h : advanceChar Point.zero c ≤ p) :
    dropPt p (c :: s) = dropPt (p.sub (advanceChar Point.zero c)) s := by
  obtain ⟨pr, pc⟩ := p
  by_cases hc : c = '\n'
  · have he : advanceChar Point.zero c = ⟨1, 0⟩ := by
      simp [advanceChar, hc, Point.zero]
    rw [he] at h ⊢
    rw [Point.le_iff] at h
    simp at h
    have hsub : (⟨pr, pc⟩ : Point).sub ⟨1, 0⟩ = ⟨pr - 1, pc⟩ := by
      simp [Point.sub]
      omega
    rw [hsub]
    cases hr : pr with
    | zero => omega
    | succ n =>
        simp only [dropPt, dropRows, hc]
        rw [show lineDrop ('\n' :: s) = s from lineDrop_cons_nl s]
        simp
  · have he : advanceChar Point.zero c = ⟨0, c.utf8Size⟩ := by
      simp [advanceChar, hc, Point.zero]
    rw [he] at h ⊢
    rw [Point.le_iff] at h
    simp at h
    cases hr : pr with
    | zero =>
        have hpc : c.utf8Size ≤ pc := by omega
        have hsub : (⟨0, pc⟩ : Point).sub ⟨0, c.utf8Size⟩ = ⟨0, pc - c.utf8Size⟩ := by
          simp [Point.sub]
        rw [hsub]
        simp only [dropPt, dropRows, byteDrop, hpc, if_true]
    | succ n =>
        have hsub : (⟨n + 1, pc⟩ : Point).sub ⟨0, c.utf8Size⟩ = ⟨n + 1, pc⟩ := by
          simp [Point.sub]
        rw [hsub]
        simp only [dropPt, dropRows]
        rw [lineDrop_cons c s hc]

/-- Dropping past a whole front block whose extent is known. -/
theorem dropPt_front (a : List Char) : ∀ (b : List Char) (p : Point),
    extentOf a ≤ p → dropPt p (a ++ b) = dropPt (p.sub (extentOf a)) b := by
  induction a with
  | nil =>
      intro b p _
      have h0 : extentOf ([] : List Char) = Point.zero := rfl
      rw [h0, Point.sub_zero]
      rfl
  | cons c a' ih =>
      intro b p hp
      have hext : extentOf (c :: a') =
          (advanceChar Point.zero c).add (extentOf a') := by
        rw [extentOf, advanceStr_cons, advanceStr_eq_add_extent]
      have hc : advanceChar Point.zero c ≤ p :=
        Point.le_trans (Point.le_add_right _ _) (by rw [← hext]; exact hp)
      have ha' : extentOf a' ≤ p.sub (advanceChar Point.zero c) :=
        Point.le_sub_of_add_le (by rw [← hext]; exact hp)
      rw [List.cons_append, dropPt_cons p c (a' ++ b) hc, ih b _ ha',
        Point.sub_sub (by rw [← hext]; exact hp), ← hext]

/-- Dropping exactly a front block leaves exactly the remainder. -/
theorem dropPt_exact (a b : List Char) : dropPt (extentOf a) (a ++ b) = b := by
  rw [dropPt_front a b (extentOf a) (Point.le_refl _), Point.sub_self, dropPt_zero]

/-! Supporting lemmas about valid positions across a front block. -/

theorem Point.le_antisymm {a b : Point} (h1 : a ≤ b) (h2 : b ≤ a) : a = b := by
  obtain ⟨ar, ac⟩ := a; obtain ⟨br, bc⟩ := b
  rw [Point.le_iff] at h1 h2
  simp at h1 h2 ⊢
  omega

theorem validPos_zero (s : List Char) : validPos s Point.zero = true := by
  cases s <;> simp [validPos, charsTo]

/-- List fronts of the same list nest by length. -/
theorem front_nests_len (q : List Char) : ∀ (q' r r' : List Char),
    q ++ r = q' ++ r' → q.length ≤ q'.length →
    ∃ q2, q' = q ++ q2 ∧ r = q2 ++ r' := by
  induction q with
  | nil =>
      intro q' r r' h _
      exact ⟨q', by simp, by simp at h; exact h⟩
  | cons c q ih =>
      intro q' r r' h hle
      cases q' with
      | nil => simp at hle
      | cons c' q'' =>
          simp only [List.cons_append, List.cons.injEq] at h
          obtain ⟨rfl, h2⟩ := h
          simp only [List.length_cons] at hle
          obtain ⟨q2, hq, hr⟩ := ih q'' r r' h2 (by omega)
          exact ⟨q2, by simp [hq], hr⟩

/-- A valid position past a front block of known extent is a valid position
of the remainder, shifted back by that extent. -/
theorem validPos_after_front (piece rest : List Char) (prel : Point)
    (he : extentOf piece ≤ prel)
    (hv : validPos (piece ++ rest) prel = true) :
    validPos rest (prel.sub (extentOf piece)) = true := by
  rw [validPos, Option.isSome_iff_exists] at hv
  obtain ⟨q, hq⟩ := hv
  obtain ⟨rr, hrr, hend⟩ := charsTo_sound prel (piece ++ rest) Point.zero q hq
  have hextq : extentOf q = prel := by
    rw [extentOf]
    exact hend
  rcases Nat.le_total piece.length q.length with hlen | hlen
  · obtain ⟨q2, hq2, hrest⟩ := front_nests_len piece q rest rr hrr hlen
    have hq2ext : extentOf q2 = prel.sub (extentOf piece) := by
      have h1 : extentOf q = (extentOf piece).add (extentOf q2) := by
        rw [hq2, extentOf_append]
      rw [hextq] at h1
      rw [h1, Point.add_sub_cancel]
    rw [validPos]
    rw [hrest, ← hq2ext]
    exact charsTo_complete _ q2 Point.zero rr rfl
  · obtain ⟨p2, hp2, _⟩ := front_nests_len q piece rr rest hrr.symm hlen
    have hple : prel ≤ extentOf piece := by
      rw [hp2, extentOf_append, ← hextq]
      exact Point.le_add_right _ _
    have heq : extentOf piece = prel := Point.le_antisymm he hple
    rw [heq, Point.sub_self]
    exact validPos_zero rest

/-! The main iterator lemma: from any invariant-satisfying state, with
enough fuel, the iterator succeeds and its pieces concatenate to the
reconstruction from that state. -/

theorem runChunks_iso_step (fuel : Nat)
    (ih : ∀ c : Chunks, chunksMeasure c < fuel →
      WfState c.inputPosition c.curEnd (c.inputChunk ++ c.source.flatten)
        c.transforms →
      ∃ out, runChunks fuel c = some out ∧
        out.flatten = (renderFrom c.inputPosition c.curEnd
          (c.inputChunk ++ c.source.flatten) c.transforms).flatten)
    (t : Transform) (ts' : List Transform) (pos curEnd : Point)
    (ch : List Char) (sr : List (List Char))
    (hdisp : t.display_text = none)
    (hlt : pos < curEnd)
    (hreach : (scanChunk pos curEnd (ch ++ sr.flatten)).reached = true)
    (hpos : (scanChunk pos curEnd (ch ++ sr.flatten)).pos = curEnd)
    (htail : WfState curEnd (curEnd.add (headInputExtent ts'))
      (scanChunk pos curEnd (ch ++ sr.flatten)).rest ts')
    (hfuel1 : ts'.length + 1 + ch.length + (sr.map List.length).sum +
      sr.length ≤ fuel)
    (hfuel2 : ch = [] → ts'.length + 1 + ch.length + (sr.map List.length).sum +
      sr.length < fuel) :
    ∃ out,
      (if (scanChunk pos curEnd ch).reached then
        (runChunks fuel ⟨ts', curEnd.add (headInputExtent ts'),
          (scanChunk pos curEnd ch).rest, sr, (scanChunk pos curEnd ch).pos⟩).map
          (fun l => (scanChunk pos curEnd ch).taken :: l)
      else
        (runChunks fuel ⟨t :: ts', curEnd,
          (scanChunk pos curEnd ch).rest, sr, (scanChunk pos curEnd ch).pos⟩).map
          (fun l => (scanChunk pos curEnd ch).taken :: l)) = some out ∧
      out.flatten =
        (renderFrom pos curEnd (ch ++ sr.flatten) (t :: ts')).flatten := by
  have happend := scanChunk_append pos curEnd ch sr.flatten
  have hlen := congrArg List.length (scanChunk_append_rest pos curEnd ch)
  rw [List.length_append] at hlen
  have hrender : renderFrom pos curEnd (ch ++ sr.flatten) (t :: ts') =
      (scanChunk pos curEnd (ch ++ sr.flatten)).taken ::
        renderFrom (scanChunk pos curEnd (ch ++ sr.flatten)).pos
          (curEnd.add (headInputExtent ts'))
          (scanChunk pos curEnd (ch ++ sr.flatten)).rest ts' := by
    simp [renderFrom, hdisp]
  by_cases hrc : (scanChunk pos curEnd ch).reached = true
  · rw [happend, if_pos hrc] at hreach hpos htail hrender
    dsimp only at hreach hpos htail hrender
    set rc := scanChunk pos curEnd ch with hrcdef
    have hm2 : chunksMeasure ⟨ts', curEnd.add (headInputExtent ts'),
        rc.rest, sr, rc.pos⟩ < fuel := by
      simp only [chunksMeasure]
      omega
    have hw2 : WfState rc.pos (curEnd.add (headInputExtent ts'))
        (rc.rest ++ sr.flatten) ts' := by
      rw [hpos]
      exact htail
    obtain ⟨out2, hrun2, hout2⟩ := ih ⟨ts', curEnd.add (headInputExtent ts'),
      rc.rest, sr, rc.pos⟩ hm2 hw2
    refine ⟨rc.taken :: out2, ?_, ?_⟩
    · rw [if_pos hrc, hrun2]
      rfl
    · rw [hrender]
      simp only [List.flatten_cons]
      rw [hout2]
  · have hrc0 : (scanChunk pos curEnd ch).reached = false := by
      cases h : (scanChunk pos curEnd ch).reached with
      | false => rfl
      | true => exact absurd h hrc
    obtain ⟨htaken, hrest0⟩ := scanChunk_not_reached pos curEnd ch hrc0
    have hposlt : (scanChunk pos curEnd ch).pos < curEnd :=
      scanChunk_not_reached_pos pos curEnd ch hlt hrc0
    rw [happend, if_neg hrc] at hreach hpos htail hrender
    dsimp only at hreach hpos htail hrender
    have hm2 : chunksMeasure ⟨t :: ts', curEnd,
        (scanChunk pos curEnd ch).rest, sr, (scanChunk pos curEnd ch).pos⟩ <
        fuel := by
      simp only [chunksMeasure, List.length_cons]
      rw [hrest0]
      by_cases hch : ch = []
      · have := hfuel2 hch
        simp only [List.length_nil]
        omega
      · have hchlen : 1 ≤ ch.length := by
          cases ch with
          | nil => exact absurd rfl hch
          | cons a b => simp
        simp only [List.length_nil]
        omega
    have hw2 : WfState (scanChunk pos curEnd ch).pos curEnd
        ((scanChunk pos curEnd ch).rest ++ sr.flatten) (t :: ts') := by
      rw [hrest0]
      simp only [List.nil_append]
      exact WfState.iso _ _ _ t ts' hdisp hposlt hreach hpos htail
    obtain ⟨out2, hrun2, hout2⟩ := ih ⟨t :: ts', curEnd,
      (scanChunk pos curEnd ch).rest, sr, (scanChunk pos curEnd ch).pos⟩ hm2 hw2
    refine ⟨(scanChunk pos curEnd ch).taken :: out2, ?_, ?_⟩
    · rw [if_neg hrc, hrun2]
      rfl
    · rw [hrender]
      simp only [List.flatten_cons]
      rw [hout2]
      dsimp only
      rw [hrest0]
      simp only [List.nil_append]
      rw [show renderFrom (scanChunk pos curEnd ch).pos curEnd sr.flatten
          (t :: ts') =
        (scanChunk (scanChunk pos curEnd ch).pos curEnd sr.flatten).taken ::
          renderFrom (scanChunk (scanChunk pos curEnd ch).pos curEnd
              sr.flatten).pos
            (curEnd.add (headInputExtent ts'))
            (scanChunk (scanChunk pos curEnd ch).pos curEnd sr.flatten).rest
            ts' from by simp [renderFrom, hdisp]]
      simp [htaken, List.append_assoc]

theorem runChunks_spec : ∀ (fuel : Nat) (c : Chunks),
    chunksMeasure c < fuel →
    WfState c.inputPosition c.curEnd (c.inputChunk ++ c.source.flatten)
      c.transforms →
    ∃ out, runChunks fuel c = some out ∧
      out.flatten = (renderFrom c.inputPosition c.curEnd
        (c.inputChunk ++ c.source.flatten) c.transforms).flatten := by
  intro fuel
  induction fuel with
  | zero =>
      intro c hm _
      omega
  | succ fuel ih =>
      intro c hm hw
      obtain ⟨ts, curEnd, chunk, src, pos⟩ := c
      dsimp only at hm hw ⊢
      cases hw with
      | done =>
          refine ⟨[], ?_, rfl⟩
          simp [runChunks, Chunks.next]
      | wrap _ _ t ts' hdisp hext htail =>
          have hm2 : chunksMeasure
              ⟨ts', curEnd.add (headInputExtent ts'), chunk, src, curEnd⟩ <
              fuel := by
            simp only [chunksMeasure, List.length_cons] at hm ⊢
            omega
          obtain ⟨out2, hrun2, hout2⟩ := ih
            ⟨ts', curEnd.add (headInputExtent ts'), chunk, src, curEnd⟩ hm2 htail
          refine ⟨['\n'] :: out2, ?_, ?_⟩
          · simp only [runChunks, Chunks.next, hdisp]
            rw [hrun2]
            rfl
          · simp only [renderFrom, hdisp, List.flatten_cons]
            rw [hout2]
      | iso _ _ _ t ts' hdisp hlt hreach hpos htail =>
          cases chunk with
          | nil =>
              cases src with
              | nil =>
                  exfalso
                  simp [scanChunk] at hreach
              | cons x xs =>
                  have hsuffix : ([] : List Char) ++ (x :: xs).flatten =
                      x ++ xs.flatten := by simp
                  rw [hsuffix] at hreach hpos htail
                  have hf1 : ts'.length + 1 + x.length +
                      (xs.map List.length).sum + xs.length ≤ fuel := by
                    simp only [chunksMeasure, List.length_cons, List.length_nil,
                      List.map_cons, List.sum_cons] at hm
                    omega
                  have hf2 : x = [] → ts'.length + 1 + x.length +
                      (xs.map List.length).sum + xs.length < fuel := by
                    intro _
                    simp only [chunksMeasure, List.length_cons, List.length_nil,
                      List.map_cons, List.sum_cons] at hm
                    omega
                  obtain ⟨out, hout, hflat⟩ := runChunks_iso_step fuel ih t ts'
                    pos curEnd x xs hdisp hlt hreach hpos htail hf1 hf2
                  have hstep : runChunks (fuel + 1)
                      ⟨t :: ts', curEnd, [], x :: xs, pos⟩ =
                      (if (scanChunk pos curEnd x).reached then
                        (runChunks fuel ⟨ts', curEnd.add (headInputExtent ts'),
                          (scanChunk pos curEnd x).rest, xs,
                          (scanChunk pos curEnd x).pos⟩).map
                          (fun l => (scanChunk pos curEnd x).taken :: l)
                      else
                        (runChunks fuel ⟨t :: ts', curEnd,
                          (scanChunk pos curEnd x).rest, xs,
                          (scanChunk pos curEnd x).pos⟩).map
                          (fun l => (scanChunk pos curEnd x).taken :: l)) := by
                    by_cases hb : (scanChunk pos curEnd x).reached = true
                    · simp [runChunks, Chunks.next, hdisp, hb]
                    · simp [runChunks, Chunks.next, hdisp, hb]
                  refine ⟨out, ?_, ?_⟩
                  · rw [hstep]
                    exact hout
                  · rw [hsuffix]
                    exact hflat
          | cons c0 ch' =>
              have hf1 : ts'.length + 1 + (c0 :: ch').length +
                  (src.map List.length).sum + src.length ≤ fuel := by
                simp only [chunksMeasure, List.length_cons] at hm
                simp only [List.length_cons]
                omega
              have hf2 : c0 :: ch' = [] → ts'.length + 1 + (c0 :: ch').length +
                  (src.map List.length).sum + src.length < fuel := by
                intro h
                exact absurd h (List.cons_ne_nil c0 ch')
              obtain ⟨out, hout, hflat⟩ := runChunks_iso_step fuel ih t ts'
                pos curEnd (c0 :: ch') src hdisp hlt hreach hpos htail hf1 hf2
              have hstep : runChunks (fuel + 1)
                  ⟨t :: ts', curEnd, c0 :: ch', src, pos⟩ =
                  (if (scanChunk pos curEnd (c0 :: ch')).reached then
                    (runChunks fuel ⟨ts', curEnd.add (headInputExtent ts'),
                      (scanChunk pos curEnd (c0 :: ch')).rest, src,
                      (scanChunk pos curEnd (c0 :: ch')).pos⟩).map
                      (fun l => (scanChunk pos curEnd (c0 :: ch')).taken :: l)
                  else
                    (runChunks fuel ⟨t :: ts', curEnd,
                      (scanChunk pos curEnd (c0 :: ch')).rest, src,
                      (scanChunk pos curEnd (c0 :: ch')).pos⟩).map
                      (fun l => (scanChunk pos curEnd (c0 :: ch')).taken :: l)) := by
                by_cases hb : (scanChunk pos curEnd (c0 :: ch')).reached = true
                · simp [runChunks, Chunks.next, hdisp, hb]
                · simp [runChunks, Chunks.next, hdisp, hb]
              refine ⟨out, ?_, ?_⟩
              · rw [hstep]
                exact hout
              · exact hflat

/-! Supporting lemmas about snapshot well-formedness. -/

theorem Point.add_left_cancel {p a b : Point} (h : p.add a = p.add b) :
    a = b := by
  obtain ⟨pr, pc⟩ := p; obtain ⟨ar, ac⟩ := a; obtain ⟨br, bc⟩ := b
  simp [Point.add] at h
  split_ifs at h <;> simp_all <;> omega

theorem Point.lt_irrefl (a : Point) : ¬ a < a := by
  rw [Point.lt_iff]; omega

theorem Point.isZero_iff (p : Point) : p.isZero = true ↔ p = Point.zero := by
  obtain ⟨pr, pc⟩ := p
  simp [Point.isZero, Point.zero]

theorem wfT_nil_iff (pos : Point) (suffix : List Char) :
    wfT pos suffix [] = true ↔ suffix = [] := by
  simp [wfT, List.isEmpty_iff]

theorem wfT_wrap_iff (pos : Point) (suffix : List Char) (t : Transform)
    (ts : List Transform) (s : List Char) (hd : t.display_text = some s) :
    wfT pos suffix (t :: ts) = true ↔
      s = ['\n'] ∧ t.summary.input.lines = Point.zero ∧
      t.summary.output.lines = (⟨1, 0⟩ : Point) ∧ wfT pos suffix ts = true := by
  simp [wfT, hd, and_assoc]

theorem wfT_iso_iff (pos : Point) (suffix : List Char) (t : Transform)
    (ts : List Transform) (hd : t.display_text = none) :
    wfT pos suffix (t :: ts) = true ↔
      t.summary.output.lines = t.summary.input.lines ∧
      Point.blt pos (pos.add t.summary.input.lines) = true ∧
      (scanChunk pos (pos.add t.summary.input.lines) suffix).reached = true ∧
      (scanChunk pos (pos.add t.summary.input.lines) suffix).pos =
        pos.add t.summary.input.lines ∧
      wfT (pos.add t.summary.input.lines)
        (scanChunk pos (pos.add t.summary.input.lines) suffix).rest ts =
        true := by
  simp [wfT, hd, and_assoc]

/-- A well-formed transform sequence satisfies the iterator invariant. -/
theorem wfT_to_WfState (ts : List Transform) : ∀ (pos : Point)
    (suffix : List Char), wfT pos suffix ts = true →
    WfState pos (pos.add (headInputExtent ts)) suffix ts := by
  induction ts with
  | nil => exact fun pos suffix _ => WfState.done _ _ _
  | cons t ts ih =>
      intro pos suffix h
      cases hd : t.display_text with
      | some s =>
          rw [wfT_wrap_iff pos suffix t ts s hd] at h
          obtain ⟨hs, hzero, -, htail⟩ := h
          have hext0 : headInputExtent (t :: ts) = Point.zero := hzero
          rw [hext0, Point.add_zero]
          exact WfState.wrap pos suffix t ts (by rw [hd, hs]) hzero
            (ih pos suffix htail)
      | none =>
          rw [wfT_iso_iff pos suffix t ts hd] at h
          obtain ⟨-, hblt, hreach, hpos, htail⟩ := h
          have hext : headInputExtent (t :: ts) = t.summary.input.lines := rfl
          rw [hext]
          exact WfState.iso pos _ suffix t ts hd hblt hreach
            hpos (by rw [← hpos] at htail ⊢; exact ih _ _ htail)

theorem intersperse_flatten_front (sep a b : List Char)
    (t : List (List Char)) :
    (((a ++ b) :: t).intersperse sep).flatten =
      a ++ ((b :: t).intersperse sep).flatten := by
  cases t <;> simp [List.intersperse]

theorem wrapCount_cons_wrap (t : Transform) (ts : List Transform)
    (s : List Char) (hd : t.display_text = some s) :
    wrapCount (t :: ts) = wrapCount ts + 1 := by
  simp [wrapCount, List.filter, hd]

theorem wrapCount_cons_iso (t : Transform) (ts : List Transform)
    (hd : t.display_text = none) :
    wrapCount (t :: ts) = wrapCount ts := by
  simp [wrapCount, List.filter, hd]

/-- A well-formed transform sequence splits its text into wrapCount + 1
blocks, and the reconstruction is those blocks interspersed with single
synthetic line feeds. -/
theorem wfT_pieces (ts : List Transform) : ∀ (pos : Point)
    (suffix : List Char), wfT pos suffix ts = true →
    ∃ pieces : List (List Char),
      pieces.length = wrapCount ts + 1 ∧
      pieces.flatten = suffix ∧
      (renderFrom pos (pos.add (headInputExtent ts)) suffix ts).flatten =
        (pieces.intersperse ['\n']).flatten := by
  induction ts with
  | nil =>
      intro pos suffix h
      rw [wfT_nil_iff] at h
      subst h
      exact ⟨[[]], by simp [wrapCount], by simp,
        by simp [renderFrom, List.intersperse]⟩
  | cons t ts ih =>
      intro pos suffix h
      cases hd : t.display_text with
      | some s =>
          rw [wfT_wrap_iff pos suffix t ts s hd] at h
          obtain ⟨hs, hzero, -, htail⟩ := h
          obtain ⟨pieces, hlen, hflat, hrender⟩ := ih pos suffix htail
          cases pieces with
          | nil => simp at hlen
          | cons p0 ptail =>
              refine ⟨[] :: p0 :: ptail, ?_, ?_, ?_⟩
              · rw [wrapCount_cons_wrap t ts s hd]
                simp at hlen ⊢
                omega
              · simpa using hflat
              · have hext0 : headInputExtent (t :: ts) = Point.zero := hzero
                rw [hext0, Point.add_zero]
                have hrw : renderFrom pos pos suffix (t :: ts) =
                    s :: renderFrom pos (pos.add (headInputExtent ts)) suffix
                      ts := by
                  simp [renderFrom, hd]
                rw [hrw, hs]
                simp only [List.flatten_cons, List.intersperse]
                rw [hrender]
                simp
      | none =>
          rw [wfT_iso_iff pos suffix t ts hd] at h
          obtain ⟨-, hblt, hreach, hpos, htail⟩ := h
          obtain ⟨pieces, hlen, hflat, hrender⟩ :=
            ih _ _ htail
          cases pieces with
          | nil => simp at hlen
          | cons p0 ptail =>
              refine ⟨((scanChunk pos (pos.add t.summary.input.lines)
                  suffix).taken ++ p0) :: ptail, ?_, ?_, ?_⟩
              · rw [wrapCount_cons_iso t ts hd]
                simpa using hlen
              · simp only [List.flatten_cons] at hflat ⊢
                rw [List.append_assoc, hflat]
                exact scanChunk_append_rest _ _ _
              · have hext : headInputExtent (t :: ts) =
                    t.summary.input.lines := rfl
                rw [hext]
                have hrw : renderFrom pos (pos.add t.summary.input.lines)
                    suffix (t :: ts) =
                    (scanChunk pos (pos.add t.summary.input.lines)
                      suffix).taken ::
                      renderFrom (scanChunk pos
                          (pos.add t.summary.input.lines) suffix).pos
                        ((pos.add t.summary.input.lines).add
                          (headInputExtent ts))
                        (scanChunk pos (pos.add t.summary.input.lines)
                          suffix).rest ts := by
                  simp [renderFrom, hd]
                rw [hrw, intersperse_flatten_front]
                simp only [List.flatten_cons]
                rw [hpos, hrender]

/-! The seek lemma: chunks_at's right-biased output-dimension seek followed
by the iterator reproduces the reconstruction from the requested position. -/

theorem chunksAt_eq_seekState (s : Snapshot) (p : Point) :
    s.chunksAt p =
      seekState s.input.text p
        (seekOutRight p Point.zero Point.zero s.transforms) := rfl

theorem seekOutRight_nil (p accOut accIn : Point) :
    seekOutRight p accOut accIn [] = (accOut, accIn, []) := rfl

theorem seekOutRight_consumed (p accOut accIn : Point) (t : Transform)
    (ts : List Transform) (h : (accOut.add t.outputExtent).ble p = true) :
    seekOutRight p accOut accIn (t :: ts) =
      seekOutRight p (accOut.add t.outputExtent) (accIn.add t.inputExtent)
        ts := by
  simp [seekOutRight, h]

theorem seekOutRight_stop (p accOut accIn : Point) (t : Transform)
    (ts : List Transform) (h : (accOut.add t.outputExtent).ble p = false) :
    seekOutRight p accOut accIn (t :: ts) = (accOut, accIn, t :: ts) := by
  simp [seekOutRight, h]

theorem validPos_nil (p : Point) (h : validPos [] p = true) : p = Point.zero := by
  simp only [validPos, charsTo] at h
  split_ifs at h with hc
  · exact hc.symm
  · simp at h

theorem runChunks_nil (fuel : Nat) (curEnd pos : Point) (chunk : List Char)
    (src : List (List Char)) (h : 1 ≤ fuel) :
    runChunks fuel ⟨[], curEnd, chunk, src, pos⟩ = some [] := by
  cases fuel with
  | zero => omega
  | succ f => simp [runChunks, Chunks.next]

theorem extentOf_newline : extentOf ['\n'] = (⟨1, 0⟩ : Point) := by decide

/-- The extent of the characters an isomorphic transform's scan consumes is
exactly the transform's input extent. -/
theorem scan_taken_extent (pos e : Point) (suffix : List Char)
    (hpos : (scanChunk pos (pos.add e) suffix).pos = pos.add e) :
    extentOf (scanChunk pos (pos.add e) suffix).taken = e := by
  have h1 := scanChunk_pos_eq pos (pos.add e) suffix
  rw [hpos, advanceStr_eq_add_extent] at h1
  exact (Point.add_left_cancel h1.symm)

theorem seek_main (text : List Char) (p : Point) (fuel : Nat) :
    ∀ (ts : List Transform) (accOut accIn : Point) (suffix front : List Char),
    wfT accIn suffix ts = true →
    text = front ++ suffix →
    extentOf front = accIn →
    accOut ≤ p →
    validPos (renderFrom accIn (accIn.add (headInputExtent ts)) suffix
      ts).flatten (p.sub accOut) = true →
    ts.length + suffix.length + 2 ≤ fuel →
    ∃ out,
      runChunks fuel (seekState text p (seekOutRight p accOut accIn ts)) =
        some out ∧
      out.flatten = dropPt (p.sub accOut)
        (renderFrom accIn (accIn.add (headInputExtent ts)) suffix
          ts).flatten := by
  intro ts
  induction ts with
  | nil =>
      intro accOut accIn suffix front hwf htext hfront hle hval hfuel
      rw [wfT_nil_iff] at hwf
      subst hwf
      have hprel : p.sub accOut = Point.zero := validPos_nil _ (by
        simpa [renderFrom] using hval)
      refine ⟨[], ?_, ?_⟩
      · rw [seekOutRight_nil]
        exact runChunks_nil fuel _ _ _ _ (by omega)
      · rw [hprel]
        simp [renderFrom, dropPt_zero]
  | cons t ts ih =>
      intro accOut accIn suffix front hwf htext hfront hle hval hfuel
      cases hd : t.display_text with
      | some s =>
          rw [wfT_wrap_iff accIn suffix t ts s hd] at hwf
          obtain ⟨hs, hzero, hone, htail⟩ := hwf
          have hrw : renderFrom accIn (accIn.add (headInputExtent (t :: ts)))
              suffix (t :: ts) =
              ['\n'] :: renderFrom accIn (accIn.add (headInputExtent ts))
                suffix ts := by
            have hext0 : headInputExtent (t :: ts) = Point.zero := hzero
            rw [hext0, Point.add_zero]
            have : renderFrom accIn accIn suffix (t :: ts) =
                s :: renderFrom accIn (accIn.add (headInputExtent ts)) suffix
                  ts := by simp [renderFrom, hd]
            rw [this, hs]
          have houtext : t.outputExtent = (⟨1, 0⟩ : Point) := hone
          by_cases hcons : (accOut.add t.outputExtent).ble p = true
          · -- the wrap transform is consumed by the seek
            have hle2 : (⟨1, 0⟩ : Point) ≤ p.sub accOut :=
              Point.le_sub_of_add_le (by rw [← houtext]; exact hcons)
            have haddle : accOut.add (⟨1, 0⟩ : Point) ≤ p := by
              rw [← houtext]; exact hcons
            have hval2 : validPos (renderFrom accIn
                (accIn.add (headInputExtent ts)) suffix ts).flatten
                (p.sub (accOut.add t.outputExtent)) = true := by
              have h1 := validPos_after_front ['\n']
                (renderFrom accIn (accIn.add (headInputExtent ts)) suffix
                  ts).flatten (p.sub accOut)
                (by rw [extentOf_newline]; exact hle2)
                (by rw [← List.flatten_cons, ← hrw]; exact hval)
              rw [extentOf_newline] at h1
              rw [Point.sub_sub haddle] at h1
              rw [← houtext] at h1
              exact h1
            have hzero' : t.inputExtent = Point.zero := hzero
            rw [seekOutRight_consumed p accOut accIn t ts hcons, hzero',
              Point.add_zero]
            obtain ⟨out, hrun, hflat⟩ := ih (accOut.add t.outputExtent)
              accIn suffix front htail htext hfront
              (by exact hcons)
              hval2
              (by simp at hfuel ⊢; omega)
            refine ⟨out, hrun, ?_⟩
            rw [hflat, hrw]
            simp only [List.flatten_cons]
            rw [dropPt_front ['\n'] _ (p.sub accOut)
              (by rw [extentOf_newline]; exact hle2)]
            rw [extentOf_newline, Point.sub_sub haddle, ← houtext]
          · -- the seek stops at the wrap transform
            have hcons' : (accOut.add t.outputExtent).ble p = false := by
              cases hb : (accOut.add t.outputExtent).ble p with
              | false => rfl
              | true => exact absurd hb hcons
            have hstop : p < accOut.add t.outputExtent :=
              (Point.ble_false_iff _ _).mp hcons'
            -- the requested position must be exactly the wrap start
            have hprel : p.sub accOut = Point.zero := by
              rw [validPos, Option.isSome_iff_exists] at hval
              obtain ⟨q, hq⟩ := hval
              obtain ⟨rr, hrr, hend⟩ := charsTo_sound _ _ _ q hq
              cases q with
              | nil =>
                  have : advanceStr Point.zero ([] : List Char) = Point.zero :=
                    rfl
                  rw [this] at hend
                  exact hend.symm
              | cons c q' =>
                  exfalso
                  rw [hrw] at hrr
                  simp only [List.flatten_cons, List.cons_append,
                    List.cons.injEq] at hrr
                  obtain ⟨rfl, -⟩ := hrr
                  have h1 : (⟨1, 0⟩ : Point) ≤ extentOf ('\n' :: q') := by
                    rw [extentOf, advanceStr_cons]
                    have : advanceChar Point.zero '\n' = (⟨1, 0⟩ : Point) := by
                      decide
                    rw [this]
                    exact advanceStr_le _ _
                  rw [extentOf] at h1
                  rw [hend] at h1
                  have h2 : accOut.add (⟨1, 0⟩ : Point) ≤
                      accOut.add (p.sub accOut) :=
                    (Point.add_le_add_left_iff _ _ _).mpr h1
                  rw [Point.add_sub_of_le hle] at h2
                  rw [houtext] at hstop
                  exact (Point.lt_irrefl p) (Point.lt_of_lt_of_le hstop h2)
            have hdrop : dropPt (accIn.add (p.sub accOut)) text = suffix := by
              rw [hprel, Point.add_zero, htext, ← hfront]
              exact dropPt_exact front suffix
            rw [seekOutRight_stop p accOut accIn t ts hcons']
            have hws : WfState accIn accIn suffix (t :: ts) :=
              WfState.wrap accIn suffix t ts (by rw [hd, hs]) hzero
                (wfT_to_WfState ts accIn suffix htail)
            have hm : chunksMeasure (seekState text p (accOut, accIn, t :: ts))
                < fuel := by
              simp only [seekState, chunksMeasure, List.length_cons, hdrop]
              simp at hfuel ⊢
              omega
            have hstate : seekState text p (accOut, accIn, t :: ts) =
                ⟨t :: ts, accIn.add (headInputExtent (t :: ts)), [],
                  [suffix], accIn.add (p.sub accOut)⟩ := by
              simp [seekState, hdrop]
            obtain ⟨out, hrun, hflat⟩ := runChunks_spec fuel
              (seekState text p (accOut, accIn, t :: ts))
              hm (by
                rw [hstate]
                dsimp only
                have hext0 : headInputExtent (t :: ts) = Point.zero := hzero
                rw [hext0, Point.add_zero, hprel, Point.add_zero]
                simpa using hws)
            refine ⟨out, hrun, ?_⟩
            rw [hflat, hstate]
            dsimp only
            rw [hprel, Point.add_zero, dropPt_zero]
            have hsfx : ([] : List Char) ++ ([suffix] : List (List Char)).flatten
                = suffix := by simp
            rw [hsfx]
      | none =>
          rw [wfT_iso_iff accIn suffix t ts hd] at hwf
          obtain ⟨hio, hblt, hreach, hpos, htail⟩ := hwf
          have hioext : t.outputExtent = t.summary.input.lines := hio
          have htaken : extentOf (scanChunk accIn
              (accIn.add t.summary.input.lines) suffix).taken =
              t.summary.input.lines :=
            scan_taken_extent accIn t.summary.input.lines suffix hpos
          have hsplit : (scanChunk accIn (accIn.add t.summary.input.lines)
              suffix).taken ++ (scanChunk accIn
              (accIn.add t.summary.input.lines) suffix).rest = suffix :=
            scanChunk_append_rest _ _ _
          have hrw : renderFrom accIn (accIn.add (headInputExtent (t :: ts)))
              suffix (t :: ts) =
              (scanChunk accIn (accIn.add t.summary.input.lines) suffix).taken
                :: renderFrom (accIn.add t.summary.input.lines)
                  ((accIn.add t.summary.input.lines).add (headInputExtent ts))
                  (scanChunk accIn (accIn.add t.summary.input.lines)
                    suffix).rest ts := by
            have hext : headInputExtent (t :: ts) = t.summary.input.lines := rfl
            rw [hext]
            have : renderFrom accIn (accIn.add t.summary.input.lines) suffix
                (t :: ts) =
                (scanChunk accIn (accIn.add t.summary.input.lines)
                  suffix).taken ::
                  renderFrom (scanChunk accIn
                      (accIn.add t.summary.input.lines) suffix).pos
                    ((accIn.add t.summary.input.lines).add
                      (headInputExtent ts))
                    (scanChunk accIn (accIn.add t.summary.input.lines)
                      suffix).rest ts := by
              simp [renderFrom, hd]
            rw [this, hpos]
          by_cases hcons : (accOut.add t.outputExtent).ble p = true
          · -- the isomorphic transform is consumed by the seek
            rw [seekOutRight_consumed p accOut accIn t ts hcons]
            simp only [Transform.inputExtent, Transform.outputExtent, hio]
              at hcons ⊢
            have hlee : t.summary.input.lines ≤ p.sub accOut :=
              Point.le_sub_of_add_le (by exact hcons)
            have h1 := validPos_after_front
              (scanChunk accIn (accIn.add t.summary.input.lines) suffix).taken
              (renderFrom (accIn.add t.summary.input.lines)
                ((accIn.add t.summary.input.lines).add (headInputExtent ts))
                (scanChunk accIn (accIn.add t.summary.input.lines)
                  suffix).rest ts).flatten
              (p.sub accOut) (by rw [htaken]; exact hlee)
              (by rw [← List.flatten_cons, ← hrw]; exact hval)
            rw [htaken, Point.sub_sub (by exact hcons)] at h1
            obtain ⟨out, hrun, hflat⟩ := ih (accOut.add t.summary.input.lines)
              (accIn.add t.summary.input.lines)
              (scanChunk accIn (accIn.add t.summary.input.lines) suffix).rest
              (front ++ (scanChunk accIn (accIn.add t.summary.input.lines)
                suffix).taken)
              htail
              (by
                calc text = front ++ suffix := htext
                  _ = front ++
                      ((scanChunk accIn (accIn.add t.summary.input.lines)
                        suffix).taken ++
                       (scanChunk accIn (accIn.add t.summary.input.lines)
                        suffix).rest) := by rw [hsplit]
                  _ = (front ++ (scanChunk accIn
                        (accIn.add t.summary.input.lines) suffix).taken) ++
                      (scanChunk accIn (accIn.add t.summary.input.lines)
                        suffix).rest := by rw [List.append_assoc])
              (by rw [extentOf_append, hfront, htaken])
              (by exact hcons)
              h1
              (by
                have hlen := congrArg List.length hsplit
                rw [List.length_append] at hlen
                simp at hfuel ⊢
                omega)
            refine ⟨out, hrun, ?_⟩
            rw [hflat, hrw]
            simp only [List.flatten_cons]
            rw [dropPt_front _ _ (p.sub accOut) (by rw [htaken]; exact hlee),
              htaken, Point.sub_sub (by exact hcons)]
          · -- the seek stops inside the isomorphic transform
            have hcons' : (accOut.add t.outputExtent).ble p = false := by
              cases hb : (accOut.add t.outputExtent).ble p with
              | false => rfl
              | true => exact absurd hb hcons
            have hstop : p < accOut.add t.outputExtent :=
              (Point.ble_false_iff _ _).mp hcons'
            have hprel : p.sub accOut < t.summary.input.lines := by
              apply Point.sub_lt_of_lt_add hle
              rw [← hioext]
              exact hstop
            -- decompose the validity front inside the scanned piece
            rw [validPos, Option.isSome_iff_exists] at hval
            obtain ⟨q, hq⟩ := hval
            obtain ⟨rr, hrr, hend⟩ := charsTo_sound _ _ _ q hq
            rw [hrw, List.flatten_cons] at hrr
            have hqext : extentOf q = p.sub accOut := hend
            have hlen : q.length ≤ (scanChunk accIn
                (accIn.add t.summary.input.lines) suffix).taken.length := by
              by_contra hgt
              obtain ⟨q2, hq2, -⟩ := front_nests_len
                (scanChunk accIn (accIn.add t.summary.input.lines)
                  suffix).taken q
                (renderFrom (accIn.add t.summary.input.lines)
                  ((accIn.add t.summary.input.lines).add (headInputExtent ts))
                  (scanChunk accIn (accIn.add t.summary.input.lines)
                    suffix).rest ts).flatten rr hrr (by omega)
              have h1 : t.summary.input.lines ≤ extentOf q := by
                rw [hq2, extentOf_append, htaken]
                exact Point.le_add_right _ _
              rw [hqext] at h1
              exact (Point.lt_irrefl _)
                (Point.lt_of_le_of_lt h1 hprel)
            obtain ⟨q2, hq2, -⟩ := front_nests_len q
              (scanChunk accIn (accIn.add t.summary.input.lines) suffix).taken
              rr
              (renderFrom (accIn.add t.summary.input.lines)
                ((accIn.add t.summary.input.lines).add (headInputExtent ts))
                (scanChunk accIn (accIn.add t.summary.input.lines)
                  suffix).rest ts).flatten hrr.symm hlen
            have hq2ext : t.summary.input.lines =
                (p.sub accOut).add (extentOf q2) := by
              rw [← htaken, hq2, extentOf_append, hqext]
            have hq2ne : q2 ≠ [] := by
              intro hnil
              rw [hnil] at hq2ext
              have : extentOf ([] : List Char) = Point.zero := rfl
              rw [this, Point.add_zero] at hq2ext
              rw [hq2ext] at hprel
              exact Point.lt_irrefl _ hprel
            have hq2adv : advanceStr (accIn.add (p.sub accOut)) q2 =
                accIn.add t.summary.input.lines := by
              rw [advanceStr_eq_add_extent, Point.add_assoc, ← hq2ext]
            have hdrop : dropPt (accIn.add (p.sub accOut)) text =
                q2 ++ (scanChunk accIn (accIn.add t.summary.input.lines)
                  suffix).rest := by
              have htext2 : text = (front ++ q) ++
                  (q2 ++ (scanChunk accIn (accIn.add t.summary.input.lines)
                    suffix).rest) := by
                calc text = front ++ suffix := htext
                  _ = front ++
                      ((scanChunk accIn (accIn.add t.summary.input.lines)
                        suffix).taken ++
                       (scanChunk accIn (accIn.add t.summary.input.lines)
                        suffix).rest) := by rw [hsplit]
                  _ = front ++ ((q ++ q2) ++
                      (scanChunk accIn (accIn.add t.summary.input.lines)
                        suffix).rest) := by rw [hq2]
                  _ = (front ++ q) ++
                      (q2 ++ (scanChunk accIn
                        (accIn.add t.summary.input.lines) suffix).rest) := by
                    simp [List.append_assoc]
              have hfq : extentOf (front ++ q) = accIn.add (p.sub accOut) := by
                rw [extentOf_append, hfront, hqext]
              rw [htext2, ← hfq]
              exact dropPt_exact _ _
            have hscan2 : scanChunk (accIn.add (p.sub accOut))
                (accIn.add t.summary.input.lines)
                (q2 ++ (scanChunk accIn (accIn.add t.summary.input.lines)
                  suffix).rest) =
                ⟨q2, (scanChunk accIn (accIn.add t.summary.input.lines)
                  suffix).rest, accIn.add t.summary.input.lines, true⟩ :=
              scanChunk_exact _ _ q2 _ hq2ne hq2adv
            rw [seekOutRight_stop p accOut accIn t ts hcons']
            have hstate : seekState text p (accOut, accIn, t :: ts) =
                ⟨t :: ts, accIn.add t.summary.input.lines, [],
                  [q2 ++ (scanChunk accIn (accIn.add t.summary.input.lines)
                    suffix).rest], accIn.add (p.sub accOut)⟩ := by
              simp [seekState, hdrop]
              rfl
            have hposlt : accIn.add (p.sub accOut) <
                accIn.add t.summary.input.lines :=
              (Point.add_lt_add_left_iff _ _ _).mpr hprel
            have hws : WfState (accIn.add (p.sub accOut))
                (accIn.add t.summary.input.lines)
                (q2 ++ (scanChunk accIn (accIn.add t.summary.input.lines)
                  suffix).rest) (t :: ts) := by
              apply WfState.iso _ _ _ t ts hd hposlt
              · rw [hscan2]
              · rw [hscan2]
              · rw [hscan2]
                dsimp only
                have h1 := wfT_to_WfState ts (accIn.add t.summary.input.lines)
                  (scanChunk accIn (accIn.add t.summary.input.lines)
                    suffix).rest htail
                exact h1
            have hm : chunksMeasure (seekState text p (accOut, accIn, t :: ts))
                < fuel := by
              have hlenq2 : q2.length ≤ (scanChunk accIn
                  (accIn.add t.summary.input.lines) suffix).taken.length := by
                rw [hq2]
                simp
              have hlensfx := congrArg List.length hsplit
              rw [List.length_append] at hlensfx
              simp only [seekState, chunksMeasure, List.length_cons, hdrop]
              simp at hfuel ⊢
              omega
            obtain ⟨out, hrun, hflat⟩ := runChunks_spec fuel
              (seekState text p (accOut, accIn, t :: ts)) hm (by
                rw [hstate]
                dsimp only
                have hsfx : ([] : List Char) ++
                    ([q2 ++ (scanChunk accIn (accIn.add t.summary.input.lines)
                      suffix).rest] : List (List Char)).flatten =
                    q2 ++ (scanChunk accIn (accIn.add t.summary.input.lines)
                      suffix).rest := by simp
                rw [hsfx]
                exact hws)
            refine ⟨out, hrun, ?_⟩
            rw [hflat, hstate]
            dsimp only
            have hsfx : ([] : List Char) ++
                ([q2 ++ (scanChunk accIn (accIn.add t.summary.input.lines)
                  suffix).rest] : List (List Char)).flatten =
                q2 ++ (scanChunk accIn (accIn.add t.summary.input.lines)
                  suffix).rest := by simp
            rw [hsfx]
            have hrender2 : renderFrom (accIn.add (p.sub accOut))
                (accIn.add t.summary.input.lines)
                (q2 ++ (scanChunk accIn (accIn.add t.summary.input.lines)
                  suffix).rest) (t :: ts) =
                q2 :: renderFrom (accIn.add t.summary.input.lines)
                  ((accIn.add t.summary.input.lines).add (headInputExtent ts))
                  (scanChunk accIn (accIn.add t.summary.input.lines)
                    suffix).rest ts := by
              simp [renderFrom, hd, hscan2]
            rw [hrender2, hrw]
            simp only [List.flatten_cons]
            have hfinal : (scanChunk accIn (accIn.add t.summary.input.lines)
                suffix).taken ++
                (renderFrom (accIn.add t.summary.input.lines)
                  ((accIn.add t.summary.input.lines).add (headInputExtent ts))
                  (scanChunk accIn (accIn.add t.summary.input.lines)
                    suffix).rest ts).flatten =
                q ++ (q2 ++ (renderFrom (accIn.add t.summary.input.lines)
                  ((accIn.add t.summary.input.lines).add (headInputExtent ts))
                  (scanChunk accIn (accIn.add t.summary.input.lines)
                    suffix).rest ts).flatten) := by
              rw [hq2]
              simp [List.append_assoc]
            rw [hfinal, ← hqext, dropPt_exact]

/-! The degenerate well-formedness branch: an empty input covered only by
zero-extent isomorphic transforms (the shape Snapshot::new gives an empty
input); the right-biased seek consumes every such transform. -/

theorem seekOutRight_degenerate (p : Point) : ∀ (ts : List Transform)
    (accOut accIn : Point),
    (ts.all fun t => t.display_text.isNone && t.inputExtent.isZero &&
      t.outputExtent.isZero) = true →
    accOut ≤ p →
    seekOutRight p accOut accIn ts = (accOut, accIn, []) := by
  intro ts
  induction ts with
  | nil => intro accOut accIn _ _; rfl
  | cons t ts ih =>
      intro accOut accIn hall hle
      simp only [List.all_cons, Bool.and_eq_true] at hall
      obtain ⟨⟨⟨h1, h2⟩, h3⟩, h4⟩ := hall
      have hoz : t.outputExtent = Point.zero := (Point.isZero_iff _).mp h3
      have hiz : t.inputExtent = Point.zero := (Point.isZero_iff _).mp h2
      rw [seekOutRight_consumed p accOut accIn t ts
        (by rw [hoz, Point.add_zero]; exact hle), hoz, hiz, Point.add_zero,
        Point.add_zero]
      exact ih accOut accIn h4 hle

theorem renderFrom_degenerate : ∀ (ts : List Transform) (pos curEnd : Point),
    (ts.all fun t => t.display_text.isNone && t.inputExtent.isZero &&
      t.outputExtent.isZero) = true →
    (renderFrom pos curEnd [] ts).flatten = [] := by
  intro ts
  induction ts with
  | nil => intro pos curEnd _; rfl
  | cons t ts ih =>
      intro pos curEnd hall
      simp only [List.all_cons, Bool.and_eq_true] at hall
      obtain ⟨⟨⟨h1, h2⟩, h3⟩, h4⟩ := hall
      have hd : t.display_text = none := by
        cases hdt : t.display_text with
        | none => rfl
        | some s => rw [hdt] at h1; simp at h1
      have hscan : scanChunk pos curEnd [] = ⟨[], [], pos, false⟩ := rfl
      have hrw : renderFrom pos curEnd [] (t :: ts) =
          [] :: renderFrom pos (curEnd.add (headInputExtent ts)) [] ts := by
        simp [renderFrom, hd, hscan]
      rw [hrw]
      simp only [List.flatten_cons, List.nil_append]
      exact ih pos (curEnd.add (headInputExtent ts)) h4

theorem wrapCount_degenerate : ∀ (ts : List Transform),
    (ts.all fun t => t.display_text.isNone && t.inputExtent.isZero &&
      t.outputExtent.isZero) = true →
    wrapCount ts = 0 := by
  intro ts
  induction ts with
  | nil => intro _; rfl
  | cons t ts ih =>
      intro hall
      simp only [List.all_cons, Bool.and_eq_true] at hall
      obtain ⟨⟨⟨h1, h2⟩, h3⟩, h4⟩ := hall
      have hd : t.display_text = none := by
        cases hdt : t.display_text with
        | none => rfl
        | some s => rw [hdt] at h1; simp at h1
      rw [wrapCount_cons_iso t ts hd]
      exact ih h4

/-- The generalized induction behind C6: wrapping from any valid boundary
with strictly ascending in-range boundaries never faults. -/
theorem wrapPieces_isSome (line : List Char) (bs : List Nat) (prev : Nat)
    (hprev : utf8Len (byteTake prev line) = prev)
    (hchain : List.Chain' (· < ·) (prev :: bs))
    (hmem : ∀ b ∈ bs, b < utf8Len line ∧ utf8Len (byteTake b line) = b) :
    (wrapPieces line prev bs).isSome = true := by
  induction bs generalizing prev with
  | nil =>
      simp only [wrapPieces]
      by_cases h : prev < utf8Len line
      · have hs : byteDrop prev line ≠ [] := by
          intro hnil
          have := byteTake_append_drop prev line
          rw [hnil, List.append_nil] at this
          rw [this] at hprev
          omega
        have := isomorphic_ofText_isSome (byteDrop prev line) hs
        simp only [h, if_true]
        cases hI : Transform.isomorphic (TextSummary.ofText (byteDrop prev line)) with
        | none => rw [hI] at this; simp at this
        | some t => simp
      · simp [h]
  | cons b bs ih =>
      have hpb : prev < b := (List.chain'_cons.mp hchain).1
      have hbmem := hmem b (by simp)
      -- the piece between the two boundaries is non-empty
      have hline1 : byteTake prev line ++ byteDrop prev line = line :=
        byteTake_append_drop prev line
      have hline2 : byteTake b line ++ byteDrop b line = line :=
        byteTake_append_drop b line
      obtain ⟨q2, hq2, hr⟩ := front_nests (byteTake prev line) (byteDrop prev line)
        (byteTake b line) (byteDrop b line) (hline1.trans hline2.symm)
        (by rw [hprev, hbmem.2]; omega)
      have hq2len : utf8Len q2 = b - prev := by
        have := congrArg utf8Len hq2
        rw [utf8Len_append, hprev, hbmem.2] at this
        omega
      have hq2ne : q2 ≠ [] := by
        intro hnil
        rw [hnil, utf8Len_nil] at hq2len
        omega
      have hpiece : byteTake (b - prev) (byteDrop prev line) = q2 := by
        rw [hr, ← hq2len, byteTake_exact]
      simp only [wrapPieces, hpiece]
      have hiso := isomorphic_ofText_isSome q2 hq2ne
      cases hI : Transform.isomorphic (TextSummary.ofText q2) with
      | none => rw [hI] at hiso; simp at hiso
      | some t =>
          have hrec := ih b hbmem.2
            (List.chain'_cons.mp hchain).2
            (fun x hx => hmem x (by simp [hx]))
          cases hW : wrapPieces line b bs with
          | none => rw [hW] at hrec; simp at hrec
          | some l => simp [Option.bind, hW]

/-! Claim theorems. -/

/-- C6: for every line and every shaping result that is a strictly ascending
sequence of byte offsets strictly within the interval from 0 to the line's
byte length, each marking a valid break point (a character boundary), the
re-wrap step never constructs a zero-length isomorphic transform: the fault
branch is unreachable. -/
theorem c6_rewrap_never_faults (line : List Char) (bs : List Nat)
    (hasc : List.Chain' (fun a b => a < b) bs)
    (hin : ∀ b ∈ bs, 0 < b ∧ b < utf8Len line ∧ utf8Len (byteTake b line) = b) :
    (wrapPieces line 0 bs).isSome = true := by
  have hchain : List.Chain' (fun a b => a < b) (0 :: bs) := by
    cases bs with
    | nil => simp
    | cons b bs' =>
        rw [List.chain'_cons]
        exact ⟨(hin b (by simp)).1, hasc⟩
  exact wrapPieces_isSome line bs 0 (by rw [byteTake_zero]; rfl) hchain
    (fun b hb => ⟨(hin b hb).2.1, (hin b hb).2.2⟩)

/-- Witness for C6 at the test scenario's line (with its trailing feed) and
break offsets 8 and 19. -/
theorem c6_rewrap_never_faults_witness :
    List.Chain' (fun a b => a < b) [8, 19] ∧
    (wrapPieces "one two three four five six\n".toList 0 [8, 19]).isSome = true :=
  ⟨List.Chain.cons (by norm_num) List.Chain.nil,
    c6_rewrap_never_faults "one two three four five six\n".toList [8, 19]
      (List.Chain.cons (by norm_num) List.Chain.nil) (by decide)⟩

/-- C5: calling the recomputation (BackgroundWrapper::sync) with an empty
edit list leaves the snapshot bit-for-bit identical: the transform sequence,
the input reference, and the version are all unchanged. -/
theorem c5_empty_edits_identity (wrapLine : List Char → List Nat)
    (old : Snapshot) (newInput : InputSnapshot) :
    BackgroundWrapper.sync wrapLine old newInput [] = some old ∧
    (BackgroundWrapper.sync wrapLine old newInput []).map Snapshot.transforms =
      some old.transforms ∧
    (BackgroundWrapper.sync wrapLine old newInput []).map Snapshot.input =
      some old.input ∧
    (BackgroundWrapper.sync wrapLine old newInput []).map Snapshot.version =
      some old.version := by
  refine ⟨rfl, rfl, rfl, rfl⟩

/-- C4: whenever a recomputation pass over a new input snapshot completes,
the resulting snapshot's version equals that input snapshot's version; hence
across sequential recomputations with strictly newer inputs the version
strictly increases. -/
theorem c4_version_tracks_input (wrapLine : List Char → List Nat)
    (old : Snapshot) (newInput : InputSnapshot) (edits : List InputEdit)
    (s' : Snapshot) (hne : edits ≠ [])
    (hs : BackgroundWrapper.sync wrapLine old newInput edits = some s') :
    s'.version = newInput.version ∧
    (old.version < newInput.version → old.version < s'.version) := by
  cases edits with
  | nil => exact absurd rfl hne
  | cons e es =>
      simp only [BackgroundWrapper.sync, Option.map_eq_some'] at hs
      obtain ⟨ts, -, h⟩ := hs
      cases h
      exact ⟨rfl, fun h => h⟩

/-- Witness for C4 at a concrete run (the startup pass over the document
"a", with the old snapshot built from version 0 and the new input at
version 1). -/
theorem c4_version_tracks_input_witness :
    ([fullEdit exInpA] ≠ ([] : List InputEdit)) ∧
    BackgroundWrapper.sync noWrap exOldA exInpA [fullEdit exInpA] =
      some { transforms := [], input := ⟨['a'], 0⟩, version := 1 } ∧
    ({ transforms := [], input := ⟨['a'], 0⟩, version := 1 } : Snapshot).version =
      exInpA.version ∧
    (exOldA.version < exInpA.version →
      exOldA.version <
        ({ transforms := [], input := ⟨['a'], 0⟩, version := 1 } : Snapshot).version) :=
  ⟨by decide, by decide,
    c4_version_tracks_input noWrap exOldA exInpA [fullEdit exInpA]
      { transforms := [], input := ⟨['a'], 0⟩, version := 1 }
      (by decide) (by decide)⟩

/-- C7: Transform::isomorphic faults exactly when the supplied text summary
spans an empty range (zero line extent); on every non-empty span it returns a
transform whose input-side and output-side summaries are both the supplied
summary, with no display text. -/
theorem c7_isomorphic_fault_iff_empty (s : TextSummary) :
    (Transform.isomorphic s = none ↔ s.lines.isZero = true) ∧
    (s.lines.isZero = false →
      Transform.isomorphic s =
        some { summary := { input := s, output := s }, display_text := none }) := by
  constructor
  · constructor
    · intro h
      by_contra hz
      have hz' : s.lines.isZero = false := by
        cases hzz : s.lines.isZero with
        | true => exact absurd hzz hz
        | false => rfl
      simp [Transform.isomorphic, hz'] at h
    · intro h
      simp [Transform.isomorphic, h]
  · intro h
    simp [Transform.isomorphic, h]

/-- Witness for C7 at the summary of the text "ab" (non-empty span) — the
iff and the implication both evaluate at a concrete summary. -/
theorem c7_isomorphic_fault_iff_empty_witness :
    (Transform.isomorphic (TextSummary.ofText "ab".toList) = none ↔
      (TextSummary.ofText "ab".toList).lines.isZero = true) ∧
    ((TextSummary.ofText "ab".toList).lines.isZero = false →
      Transform.isomorphic (TextSummary.ofText "ab".toList) =
        some { summary := { input := TextSummary.ofText "ab".toList
                          , output := TextSummary.ofText "ab".toList }
             , display_text := none }) :=
  c7_isomorphic_fault_iff_empty (TextSummary.ofText "ab".toList)

/-- C8: the orchestration layer's sync returns the previously cached
snapshot unchanged (same transforms and version, not reflecting the submitted
edits), leaves the cached state untouched, and only appends the batch to the
background queue. -/
theorem c8_sync_returns_stale_snapshot (st : WrapMapState)
    (input : InputSnapshot) (edits : List InputEdit) :
    (st.sync input edits).1 = st.snapshot ∧
    (st.sync input edits).1.version = st.snapshot.version ∧
    (st.sync input edits).2.snapshot = st.snapshot ∧
    (st.sync input edits).2.interpolated_version = st.interpolated_version ∧
    (st.sync input edits).2.queue = st.queue ++ [(input, edits)] :=
  ⟨rfl, rfl, rfl, rfl, rfl⟩

/-- C9: sync derives the row ranges of an edit as start.row .. end.row + 1 in
both coordinate spaces, so for any edit whose point ranges are ordered the
derived row ranges are never empty — even when the point range itself is
empty. -/
theorem c9_row_ranges_never_empty (e : InputEdit)
    (hold : e.old_lines.start.row ≤ e.old_lines.stop.row)
    (hnew : e.new_lines.start.row ≤ e.new_lines.stop.row) :
    (toRowEdit e).old_rows =
      ⟨e.old_lines.start.row, e.old_lines.stop.row + 1⟩ ∧
    (toRowEdit e).new_rows =
      ⟨e.new_lines.start.row, e.new_lines.stop.row + 1⟩ ∧
    (toRowEdit e).old_rows.start < (toRowEdit e).old_rows.stop ∧
    (toRowEdit e).new_rows.start < (toRowEdit e).new_rows.stop := by
  refine ⟨rfl, rfl, ?_, ?_⟩ <;> simp [toRowEdit] <;> omega

/-- Witness for C9 at a pure deletion (empty point range at row 2, column
5): both derived row ranges still contain one row. -/
theorem c9_row_ranges_never_empty_witness :
    ((⟨⟨⟨2, 5⟩, ⟨2, 5⟩⟩, ⟨⟨2, 5⟩, ⟨2, 5⟩⟩⟩ : InputEdit).old_lines.start.row ≤
      (⟨⟨⟨2, 5⟩, ⟨2, 5⟩⟩, ⟨⟨2, 5⟩, ⟨2, 5⟩⟩⟩ : InputEdit).old_lines.stop.row) ∧
    (toRowEdit ⟨⟨⟨2, 5⟩, ⟨2, 5⟩⟩, ⟨⟨2, 5⟩, ⟨2, 5⟩⟩⟩).old_rows.start <
      (toRowEdit ⟨⟨⟨2, 5⟩, ⟨2, 5⟩⟩, ⟨⟨2, 5⟩, ⟨2, 5⟩⟩⟩).old_rows.stop :=
  ⟨by decide,
    (c9_row_ranges_never_empty ⟨⟨⟨2, 5⟩, ⟨2, 5⟩⟩, ⟨⟨2, 5⟩, ⟨2, 5⟩⟩⟩
      (by decide) (by decide)).2.2.1⟩

/-- C10: Snapshot::new builds exactly one isomorphic transform whose
input-side and output-side summaries both equal the whole input's text
summary, with no wrap-point transforms, whatever the configured wrap width
(the constructor takes none); it builds the transform record directly, so an
empty input yields the same single zero-extent transform without any fault. -/
theorem c10_initial_snapshot_single_isomorphic (inp : InputSnapshot) :
    (Snapshot.new inp).transforms =
      [{ summary := { input := inp.textSummary, output := inp.textSummary }
       , display_text := none }] ∧
    (Snapshot.new inp).version = inp.version ∧
    (Snapshot.new inp).input = inp ∧
    ((Snapshot.new inp).transforms.all fun t => t.display_text.isNone) = true :=
  ⟨rfl, rfl, rfl, rfl⟩

/-- C3 evaluated at its failing input: the very first recomputation pass over
the document "a" (the whole-document edit BackgroundWrapper::run submits)
produces an empty transform sequence, whose input-side and output-side
summary sums are the empty summary — not the input snapshot's total summary. -/
theorem c3_summary_additivity_fails_on_unterminated_line :
    (fromScratch noWrap exInpA).map Snapshot.transforms = some [] ∧
    inputSummarySum [] ≠ exInpA.textSummary ∧
    outputSummarySum [] ≠ exInpA.textSummary := by
  refine ⟨by decide, by decide, by decide⟩

/-- C2 evaluated at its failing input: starting from the consistent snapshot
the code itself produces from scratch for "ab\nccc\n" (where the line
"ccc" wraps after two bytes), the incremental recomputation of the edit
replacing "ab" by "Xb" loses the leading wrapped piece "cc" of the reused
row, while the from-scratch wrap of the new input keeps it. -/
theorem c2_incremental_differs_from_scratch :
    ((fromScratch exWC exOldI).bind fun p =>
        BackgroundWrapper.sync exWC p exNewI [exEditC]).map Snapshot.transforms =
      some [isoT "Xb\n", Transform.newline, isoT "c\n"] ∧
    (fromScratch exWC exNewI).map Snapshot.transforms =
      some [isoT "Xb\n", isoT "cc", Transform.newline, isoT "c\n"] ∧
    ([isoT "Xb\n", Transform.newline, isoT "c\n"] : List Transform) ≠
      [isoT "Xb\n", isoT "cc", Transform.newline, isoT "c\n"] := by
  refine ⟨by decide, by decide, by decide⟩

/-- C1: for every well-formed snapshot and every valid output position p,
the chunk iterator started at p (chunks_at, with the right-biased seek)
succeeds and the concatenation of the fragments it yields equals exactly the
output text from p to document end, where the output text is the
transform-by-transform reconstruction; in particular that reconstruction is
the original input text split into wrapCount + 1 blocks with a single
synthetic line feed inserted at each wrap-point transform, so no characters
are lost or duplicated. -/
theorem c1_chunks_round_trip (s : Snapshot) (p : Point)
    (hwf : wfSnapshot s = true)
    (hval : validPos (renderAll s.input.text s.transforms) p = true) :
    ∃ out, s.chunksCollect p = some out ∧
      out.flatten = dropPt p (renderAll s.input.text s.transforms) ∧
      ∃ pieces : List (List Char),
        pieces.length = wrapCount s.transforms + 1 ∧
        pieces.flatten = s.input.text ∧
        renderAll s.input.text s.transforms =
          (pieces.intersperse ['\n']).flatten := by
  rw [wfSnapshot, Bool.or_eq_true] at hwf
  cases hwf with
  | inl hwf =>
      obtain ⟨out, hrun, hflat⟩ :=
        seek_main s.input.text p
          (s.transforms.length + s.input.text.length + 2)
          s.transforms Point.zero Point.zero s.input.text [] hwf rfl rfl
          (Point.zero_le p)
          (by rw [Point.sub_zero]; exact hval)
          (by omega)
      refine ⟨out, ?_, ?_, ?_⟩
      · show runChunks (s.transforms.length + s.input.text.length + 2)
          (s.chunksAt p) = some out
        rw [chunksAt_eq_seekState]
        exact hrun
      · rw [Point.sub_zero] at hflat
        exact hflat
      · obtain ⟨pieces, h1, h2, h3⟩ :=
          wfT_pieces s.transforms Point.zero s.input.text hwf
        exact ⟨pieces, h1, h2, h3⟩
  | inr hdeg =>
      rw [Bool.and_eq_true] at hdeg
      obtain ⟨hemp, hall⟩ := hdeg
      have htext : s.input.text = [] := by
        cases hl : s.input.text with
        | nil => rfl
        | cons c cs => rw [hl] at hemp; simp at hemp
      have hra : renderAll s.input.text s.transforms = [] := by
        show (renderFrom Point.zero
          (Point.zero.add (headInputExtent s.transforms))
          s.input.text s.transforms).flatten = []
        rw [htext]
        exact renderFrom_degenerate s.transforms Point.zero _ hall
      have hp : p = Point.zero :=
        validPos_nil p (by rw [hra] at hval; exact hval)
      refine ⟨[], ?_, ?_, ?_⟩
      · show runChunks (s.transforms.length + s.input.text.length + 2)
          (s.chunksAt p) = some []
        rw [chunksAt_eq_seekState,
          seekOutRight_degenerate p s.transforms Point.zero Point.zero hall
            (Point.zero_le p)]
        exact runChunks_nil _ _ _ _ _ (by omega)
      · simp [hra, hp, dropPt_zero]
      · refine ⟨[[]], ?_, ?_, ?_⟩
        · simp [wrapCount_degenerate s.transforms hall]
        · simp [htext]
        · rw [hra]
          simp [List.intersperse]

theorem c1_chunks_round_trip_witness :
    wfSnapshot exSnap = true ∧
    validPos (renderAll exSnap.input.text exSnap.transforms)
      (⟨0, 3⟩ : Point) = true ∧
    ∃ out, exSnap.chunksCollect ⟨0, 3⟩ = some out ∧
      out.flatten = dropPt ⟨0, 3⟩
        (renderAll exSnap.input.text exSnap.transforms) ∧
      ∃ pieces : List (List Char),
        pieces.length = wrapCount exSnap.transforms + 1 ∧
        pieces.flatten = exSnap.input.text ∧
        renderAll exSnap.input.text exSnap.transforms =
          (pieces.intersperse ['\n']).flatten :=
  ⟨by decide, by decide,
    c1_chunks_round_trip exSnap ⟨0, 3⟩ (by decide) (by decide)⟩

end Zed
